import Mathlib

/-!
# The LMC assembler and virtual machine of `lmc_virtual_machine.js`

A shallow embedding of the assembler (`lexical_analysis`, `syntax_analysis`,
`assemble`), the instruction codec (`to_numeric`, `from_numeric`) and the
execution engine (`step`, `run`), followed by theorems about them.

Conventions of the embedding.

* A string is a list of characters (`Str`).
* The numbers of the host language are the binary64 floating point numbers.
  `Number` converts a string to the binary64 number nearest to what it writes,
  in every notation of the host (digits, a fraction, an exponent, a binary,
  octal or hexadecimal literal, `Infinity`); tokens and operands carry that
  number (`NumParse`). Negative zero is identified with zero.
* A value held by the machine (`Value`) is an integer, `NaN` or `undefined`,
  and the arithmetic of `to_numeric`, `from_numeric` and `step` is that of the
  integers, with which the host agrees as long as every value stays within
  `-2^53 .. 2^53`. A word that is no integer (an operand such as `1.5` or
  `Infinity`) is outside these values: `to_numeric` then ends in
  `Err.unmodelled`, which is a limit of the embedding and not an exception of
  the program.
* An exception thrown by the program is a value of `Err` returned through
  `Except`.
* The symbol table is the list of the own properties of the plain object the
  program stores labels in. Two property names behave differently from every
  other on such an object, and the embedding follows the host: an assignment to
  `__proto__` stores nothing, and a stored `hasOwnProperty` shadows the method
  the program calls on the table.
* `run` loops until a step signals halt; the embedding bounds the loop by a
  number of steps (`fuel`) and returns `none` when the bound is reached first.
-/

namespace LMC

/-- A string of the host language. -/
abbrev Str := List Char

/-- A value held by the machine: an integer, `NaN` or `undefined`. -/
inductive Value where
  | num (n : Int)
  | nan
  | undefined
  deriving DecidableEq, Repr

deriving instance DecidableEq for Except

/-- The exceptions of the program, and the limit of the embedding. -/
inductive Err where
  /-- Thrown by `lexical_analysis`: `Error on line index: elems ...`. -/
  | tooManyElements (index : Nat) (elems : List Str)
  /-- Thrown by `syntax_analysis`: `Multiple defenitions of label ..., latest at ...`. -/
  | multipleDefinitions (label : Str) (index : Nat)
  /-- Thrown by `assemble`: `Undefined symbol: ...`. -/
  | undefinedSymbol (operand : Str)
  /-- The host's `TypeError` when `symbol_table.hasOwnProperty` is called after a
  label named `hasOwnProperty` has been stored in the table, shadowing the method. -/
  | notAFunction
  /-- Thrown by `step`: `How on earth did you get here?`, after logging the
  program counter, the accumulator, the memory and the stack. -/
  | invalidOpcode (pc accumulator : Value) (ram stack : List Value)
  /-- Not an exception: the assembly needs a machine word that is no integer. -/
  | unmodelled
  deriving DecidableEq, Repr

/-! ## Opcode tables -/

/-- The table `OPCODES_TO_NUMERIC`, in the order of its keys. -/
def OPCODES_TO_NUMERIC : List (Str × Int) :=
  [ ("ADD".toList, 1), ("SUB".toList, 2), ("STA".toList, 3), ("POP".toList, 4),
    ("PSH".toList, 4), ("LDAPC".toList, 4), ("LDA".toList, 5), ("BRA".toList, 6),
    ("BRZ".toList, 7), ("BRP".toList, 8), ("INP".toList, 9), ("OUT".toList, 9),
    ("OUTC".toList, 9), ("HLT".toList, 0), ("RET".toList, 0), ("DAT".toList, -1) ]

/-- The table `OPCODES_TO_EXTRA_NUMERIC`. -/
def OPCODES_TO_EXTRA_NUMERIC : List (Str × Int) :=
  [ ("POP".toList, 1), ("PSH".toList, 2), ("LDAPC".toList, 3), ("INP".toList, 1),
    ("OUT".toList, 2), ("OUTC".toList, 3), ("HLT".toList, 0), ("RET".toList, 1) ]

/-- `KEYWORDS = Object.keys(OPCODES_TO_NUMERIC)`. -/
def KEYWORDS : List Str := OPCODES_TO_NUMERIC.map Prod.fst

/-! ## The host's string to number conversion -/

/-- The characters `Number` strips from both ends of a string: the white space
and line terminator characters of the host language. -/
def isStrWhiteSpace (c : Char) : Bool :=
  let n := c.toNat
  n = 0x09 || n = 0x0A || n = 0x0B || n = 0x0C || n = 0x0D || n = 0x20 || n = 0xA0 ||
  n = 0x1680 || (0x2000 ≤ n && n ≤ 0x200A) || n = 0x2028 || n = 0x2029 || n = 0x202F ||
  n = 0x205F || n = 0x3000 || n = 0xFEFF

/-- A decimal digit. -/
def isDigit (c : Char) : Bool := 48 ≤ c.toNat && c.toNat ≤ 57

/-- The value of a decimal digit. -/
def digitVal (c : Char) : Nat := c.toNat - 48

/-- The value of a run of decimal digits, most significant first. -/
def digitsVal (ds : Str) : Nat := ds.foldl (fun acc c => acc * 10 + digitVal c) 0

/-- Is the string a non-empty run of decimal digits. -/
def isDigits (s : Str) : Bool := !s.isEmpty && s.all isDigit

/-- Strip the white space before the first and after the last other character. -/
def trim (s : Str) : Str :=
  ((s.dropWhile isStrWhiteSpace).reverse.dropWhile isStrWhiteSpace).reverse

/-- An optional exponent part: nothing, or `e`/`E`, an optional sign and digits. -/
def isExponentOpt : Str → Bool
  | [] => true
  | c :: rest =>
    (c = 'e' || c = 'E') &&
      (match rest with
       | '+' :: ds => isDigits ds
       | '-' :: ds => isDigits ds
       | ds => isDigits ds)

/-- An unsigned decimal literal of the host's string numeric grammar: `Infinity`,
`digits . digits? exponent?`, `. digits exponent?` or `digits exponent?`. -/
def isUnsignedDecimal (s : Str) : Bool :=
  s = "Infinity".toList ||
    (let d1 := s.takeWhile isDigit
     match s.dropWhile isDigit with
     | '.' :: r =>
       (!d1.isEmpty || !(r.takeWhile isDigit).isEmpty) && isExponentOpt (r.dropWhile isDigit)
     | r => !d1.isEmpty && isExponentOpt r)

/-- A binary, octal or hexadecimal integer literal: `0b`, `0o` or `0x` (in either
case) followed by at least one digit of that base. -/
def isNonDecimalInteger : Str → Bool
  | '0' :: p :: ds =>
    !ds.isEmpty &&
      (((p = 'b' || p = 'B') && ds.all (fun c => c = '0' || c = '1')) ||
       ((p = 'o' || p = 'O') && ds.all (fun c => 48 ≤ c.toNat && c.toNat ≤ 55)) ||
       ((p = 'x' || p = 'X') && ds.all (fun c => isDigit c ||
          (97 ≤ c.toNat && c.toNat ≤ 102) || (65 ≤ c.toNat && c.toNat ≤ 70))))
  | _ => false

/-- A number of the host language, as the conversion of a string gives it: every
binary64 value has exactly one form here. -/
inductive NumParse where
  /-- An integer. Negative zero is identified with zero. -/
  | int (k : Int)
  /-- The value `NaN`: the string converted is not a numeric literal. -/
  | nan
  /-- The value `Infinity`, and `-Infinity` when `negative`. -/
  | infinity (negative : Bool)
  /-- The number `m / 2 ^ e` when it is not an integer: `m` is odd and `e` is positive. -/
  | dyadic (m : Int) (e : Nat)
  deriving DecidableEq, Repr

instance : Coe Int NumParse := ⟨NumParse.int⟩

instance (n : Nat) : OfNat NumParse n := ⟨NumParse.int n⟩

/-- The largest `e` with `2 ^ e ≤ n`, and `0` for `n = 0`; `fuel` bounds the number
of halvings. -/
def leadingBit : Nat → Nat → Nat
  | 0, _ => 0
  | fuel + 1, n => if n < 2 then 0 else leadingBit fuel (n / 2) + 1

/-- The largest `e` with `2 ^ e ≤ p / q`, for positive `p` and `q`. -/
def binaryExponent (p q : Nat) : Int :=
  let e : Int := (leadingBit p p : Int) - (leadingBit q q : Int)
  if (if 0 ≤ e then q * 2 ^ e.toNat ≤ p else q ≤ p * 2 ^ (-e).toNat) then e else e - 1

/-- The fraction `m / 2 ^ e` in lowest terms, for positive `m`. -/
def lowestTerms : Nat → Nat → Nat × Nat
  | m, 0 => (m, 0)
  | m, e + 1 => if m % 2 = 0 then lowestTerms (m / 2) e else (m, e + 1)

/-- The integer `n`, negated when `negative`. -/
def signed (negative : Bool) (n : Nat) : Int := if negative then -(n : Int) else n

/-- The integer nearest to `numerator / denominator`, the even one of two that are
equally near. -/
def nearestEven (numerator denominator : Nat) : Nat :=
  let quotient := numerator / denominator
  let remainder := numerator % denominator
  if 2 * remainder < denominator then quotient
  else if denominator < 2 * remainder then quotient + 1
  else if quotient % 2 = 0 then quotient else quotient + 1

/-- The number `significand * 2 ^ exponent`, negated when `negative`, in the form
it has as a number of the host, for the significands that `round64` gives: at
most `2 ^ 53`, and at least `2 ^ 52` when the exponent is not negative. The
greatest finite number is `(2 ^ 53 - 1) * 2 ^ 971`: an exponent above `971`, and the
significand `2 ^ 53` with the exponent `971`, give an infinity. -/
def ofSignificand (negative : Bool) (significand : Nat) (exponent : Int) : NumParse :=
  if 0 ≤ exponent then
    if 971 < exponent ∨ (exponent = 971 ∧ significand = 2 ^ 53) then .infinity negative
    else .int (signed negative (significand * 2 ^ exponent.toNat))
  else if significand = 0 then .int 0
  else
    match lowestTerms significand (-exponent).toNat with
    | (m, 0) => .int (signed negative m)
    | (m, e + 1) => .dyadic (signed negative m) (e + 1)

/-- The binary64 number nearest to `p / q`, for positive `q`, negated when
`negative`. The last place of the result is `2 ^ exponent`, which leaves 53
significant binary digits, and fewer below `2 ^ -1022`, where the last place is
`2 ^ -1074`; `p / q` is rounded to the nearest multiple of it, to the one with the
even significand when two are equally near. -/
def round64 (negative : Bool) (p q : Nat) : NumParse :=
  if p = 0 then .int 0
  else
    let exponent : Int := max (binaryExponent p q - 52) (-1074)
    let numerator := if 0 ≤ exponent then p else p * 2 ^ (-exponent).toNat
    let denominator := if 0 ≤ exponent then q * 2 ^ exponent.toNat else q
    ofSignificand negative (nearestEven numerator denominator) exponent

/-- The number of the host for the integer `n`, negated when `negative`: the
integer itself up to `2 ^ 53`, where every integer is a binary64 value, and the
nearest binary64 value beyond. -/
def integer (negative : Bool) (n : Nat) : NumParse :=
  if n ≤ 2 ^ 53 then .int (signed negative n) else round64 negative n 1

/-- The value of an exponent part accepted by `isExponentOpt`. -/
def exponentVal : Str → Int
  | _ :: '+' :: ds => digitsVal ds
  | _ :: '-' :: ds => -(digitsVal ds : Int)
  | _ :: ds => digitsVal ds
  | [] => 0

/-- The number nearest to `digits * 10 ^ exponent`. -/
def scaled (negative : Bool) (digits : Nat) (exponent : Int) : NumParse :=
  if 0 ≤ exponent then round64 negative (digits * 10 ^ exponent.toNat) 1
  else round64 negative digits (10 ^ (-exponent).toNat)

/-- The number written by an unsigned decimal literal, a string accepted by
`isUnsignedDecimal`: the digits before and after the point, scaled by the exponent
less the number of digits after the point. -/
def unsignedDecimalVal (negative : Bool) (s : Str) : NumParse :=
  if s = "Infinity".toList then .infinity negative
  else
    let d1 := s.takeWhile isDigit
    match s.dropWhile isDigit with
    | '.' :: r =>
      let d2 := r.takeWhile isDigit
      scaled negative (digitsVal (d1 ++ d2)) (exponentVal (r.dropWhile isDigit) - d2.length)
    | r => scaled negative (digitsVal d1) (exponentVal r)

/-- The value of a digit of a binary, octal or hexadecimal literal. -/
def nonDecimalDigitVal (c : Char) : Nat :=
  if isDigit c then c.toNat - 48 else if 97 ≤ c.toNat then c.toNat - 87 else c.toNat - 55

/-- The integer written by a literal accepted by `isNonDecimalInteger`. -/
def nonDecimalVal : Str → Nat
  | '0' :: p :: ds =>
    let base := if p = 'b' ∨ p = 'B' then 2 else if p = 'o' ∨ p = 'O' then 8 else 16
    ds.foldl (fun acc c => acc * base + nonDecimalDigitVal c) 0
  | _ => 0

/-- `Number(s)` on a string: white space is stripped, the empty string is `0`, a
numeric literal gives the binary64 number nearest to the value it writes, and any
other string gives `NaN`. -/
def Number (s : Str) : NumParse :=
  match trim s with
  | [] => .int 0
  | '+' :: r =>
    if isDigits r then integer false (digitsVal r)
    else if isUnsignedDecimal r then unsignedDecimalVal false r else .nan
  | '-' :: r =>
    if isDigits r then integer true (digitsVal r)
    else if isUnsignedDecimal r then unsignedDecimalVal true r else .nan
  | t =>
    if isDigits t then integer false (digitsVal t)
    else if isUnsignedDecimal t then unsignedDecimalVal false t
    else if isNonDecimalInteger t then integer false (nonDecimalVal t) else .nan

/-- `isNaN(s)` on a string. -/
def isNaN (s : Str) : Bool := Number s = .nan

/-! ## Tokens and lexical analysis -/

/-- A token built by `lexical_analysis`: its type (`TOKENS`) with the value it
carries. A literal carries `Number(lexeme)`; a new-instruction token carries the
line terminator. -/
inductive Token where
  | LABEL (value : Str)
  | OPERATION (value : Str)
  | LITERAL (value : NumParse)
  | NEW_INSTRUCTION
  deriving DecidableEq, Repr

/-- `s.split(sep)` for a separator of one character. -/
def split (sep : Char) : Str → List Str
  | [] => [[]]
  | c :: cs =>
    if c = sep then [] :: split sep cs
    else
      match split sep cs with
      | [] => [[c]]
      | w :: ws => (c :: w) :: ws

/-- The loop of `preprocess`: the character at each index but the first is dropped
when it and the character before it are both spaces. -/
def collapse : Char → Str → Str
  | _, [] => []
  | prev, c :: cs => if prev = ' ' ∧ c = ' ' then collapse c cs else c :: collapse c cs

/-- `preprocess(text)`: tabs become spaces, then runs of spaces become one space. -/
def preprocess (text : Str) : Str :=
  match text.map (fun c => if c = '\t' then ' ' else c) with
  | [] => []
  | c :: cs => c :: collapse c cs

/-- The first loop of `lexical_analysis`: each line is preprocessed, split on
single spaces and given the terminator as last element. -/
def lexemes (program_string : Str) : List (List Str) :=
  (split '\n' program_string).map (fun elem => split ' ' (preprocess elem) ++ [['\n']])

/-- The second loop of `lexical_analysis`: the first line (from `index` on) with
more than four elements, if any. -/
def firstLongLine : Nat → List (List Str) → Option (Nat × List Str)
  | _, [] => none
  | index, elem :: rest =>
    if elem.length > 4 then some (index, elem) else firstLongLine (index + 1) rest

/-- The classification `switch` of `lexical_analysis` on one lexeme. -/
def classify (lexeme : Str) : Except Err Token :=
  if KEYWORDS.contains lexeme then .ok (.OPERATION lexeme)
  else if lexeme = ['\n'] then .ok .NEW_INSTRUCTION
  else if isNaN lexeme then .ok (.LABEL lexeme)
  else .ok (.LITERAL (Number lexeme))

/-- The token loop of `lexical_analysis` over the lexemes of all lines in order. -/
def tokenize : List Str → Except Err (List Token)
  | [] => .ok []
  | lexeme :: rest =>
    match classify lexeme with
    | .error e => .error e
    | .ok token =>
      match tokenize rest with
      | .error e => .error e
      | .ok tokens => .ok (token :: tokens)

/-- `lexical_analysis(program_string)`. -/
def lexical_analysis (program_string : Str) : Except Err (List Token) :=
  let lexemed_program := lexemes program_string
  match firstLongLine 0 lexemed_program with
  | some (index, elem) => .error (.tooManyElements index elem)
  | none => tokenize lexemed_program.flatten

/-! ## Instructions and syntax analysis -/

/-- The operand of an instruction being assembled: a number, or the text of a
label token. -/
inductive Operand where
  | num (n : NumParse)
  | sym (name : Str)
  deriving DecidableEq, Repr

/-- An `Instruction` at assembly time; `none` is `undefined`. -/
structure Instruction where
  label : Option Str := none
  opcode : Option Int := none
  operand : Operand := .num 0
  deriving DecidableEq, Repr

/-- `instruction.operand != 0`. -/
def Operand.nonZero : Operand → Bool
  | .num n => n != .int 0
  | .sym s => Number s != .int 0

/-- The condition under which a new-instruction token pushes the instruction. -/
def Instruction.nonEmpty (i : Instruction) : Bool :=
  i.label.isSome || i.opcode.isSome || i.operand.nonZero

/-- The `if ... else if` chain of the token loop of `syntax_analysis`. -/
def dispatch (instruction : Instruction) : Token → Instruction
  | .OPERATION value =>
    if instruction.opcode.isNone then
      { instruction with
        opcode := OPCODES_TO_NUMERIC.lookup value
        operand :=
          match OPCODES_TO_EXTRA_NUMERIC.lookup value with
          | some extra => .num extra
          | none => instruction.operand }
    else instruction
  | .LABEL value =>
    if instruction.opcode.isNone then { instruction with label := some value }
    else { instruction with operand := .sym value }
  | .LITERAL value =>
    if instruction.opcode.isNone then instruction
    else { instruction with operand := .num value }
  | .NEW_INSTRUCTION => instruction

/-- The token loop of `syntax_analysis`: `instructions` is the list collated so
far and `instruction` the one in progress. -/
def collate (instructions : List Instruction) (instruction : Instruction) :
    List Token → List Instruction
  | [] => instructions
  | token :: rest =>
    if token = .NEW_INSTRUCTION ∧ instruction.nonEmpty then
      collate (instructions ++ [instruction]) (dispatch {} token) rest
    else
      collate instructions (dispatch instruction token) rest

/-- The symbol table: the own properties of the object `symbol_table`, in the
order they were stored, each a label with the index of its instruction. -/
abbrev SymbolTable := List (Str × Nat)

/-- The property name `hasOwnProperty`. -/
def hasOwnPropertyName : Str := "hasOwnProperty".toList

/-- The property name `__proto__`. -/
def protoName : Str := "__proto__".toList

/-- `symbol_table.hasOwnProperty(key)`. The method is looked up on the table
first, so once a label named `hasOwnProperty` is stored the call is a call of a
string and the host throws. -/
def hasOwnProperty (symbol_table : SymbolTable) (key : Str) : Except Err Bool :=
  if (symbol_table.lookup hasOwnPropertyName).isSome then .error .notAFunction
  else .ok (symbol_table.lookup key).isSome

/-- `symbol_table[label] = index` for a label that is not yet a property. For
`__proto__` the assignment reaches the prototype accessor of the host, which
ignores a value that is not an object: no property is stored. -/
def setProperty (symbol_table : SymbolTable) (label : Str) (index : Nat) : SymbolTable :=
  if label = protoName then symbol_table else symbol_table ++ [(label, index)]

/-- The label loop of `syntax_analysis`, from instruction `index` on. -/
def collect_labels (symbol_table : SymbolTable) (index : Nat) :
    List Instruction → Except Err SymbolTable
  | [] => .ok symbol_table
  | instruction :: rest =>
    match instruction.label with
    | none => collect_labels symbol_table (index + 1) rest
    | some label =>
      match hasOwnProperty symbol_table label with
      | .error e => .error e
      | .ok true => .error (.multipleDefinitions label index)
      | .ok false => collect_labels (setProperty symbol_table label index) (index + 1) rest

/-- `syntax_analysis(tokens)`. -/
def syntax_analysis (tokens : List Token) : Except Err (List Instruction × SymbolTable) :=
  let instructions := collate [] {} tokens
  match collect_labels [] 0 instructions with
  | .error e => .error e
  | .ok symbol_table => .ok (instructions, symbol_table)

/-- The symbol table holds exactly the labels of the instructions, each with the
index of the instruction that carries it. -/
def RecordsLabels (symbol_table : SymbolTable) (instructions : List Instruction) : Prop :=
  ∀ (key : Str) (v : Nat), symbol_table.lookup key = some v ↔
    ∃ instruction, instructions[v]? = some instruction ∧ instruction.label = some key

/-! ## Encoding -/

/-- The decimal digit of a number below ten. -/
def digitChar (d : Nat) : Char := Char.ofNat (48 + d)

/-- The decimal digits of `n`, most significant first; `fuel` bounds their number. -/
def natDigits : Nat → Nat → Str
  | 0, _ => []
  | fuel + 1, n => if n < 10 then [digitChar n] else natDigits fuel (n / 10) ++ [digitChar (n % 10)]

/-- A natural number written in decimal. -/
def decimalNat (n : Nat) : Str := natDigits (n + 1) n

/-- An integer written in decimal, as the host writes a number that is a property key. -/
def decimal : Int → Str
  | .ofNat n => decimalNat n
  | .negSucc n => '-' :: decimalNat (n + 1)

/-- The property key an operand is converted to: a string is its own key and a
number is written out, an integer in decimal (from 22 digits on the host writes it
with an exponent: a numeral either way, which no label is). The writing of a
number that is not an integer is not part of the embedding: `none`. -/
def Operand.key : Operand → Option Str
  | .num (.int n) => some (decimal n)
  | .num .nan => some "NaN".toList
  | .num (.infinity negative) => some (if negative then "-Infinity".toList else "Infinity".toList)
  | .num (.dyadic _ _) => none
  | .sym s => some s

/-- `isNaN(instruction.operand)`. -/
def Operand.isNaN : Operand → Bool
  | .num n => n = .nan
  | .sym s => LMC.isNaN s

/-- `to_numeric()`: the operand itself for `DAT`, else `opcode * 1000 + operand`,
which is `NaN` when the opcode is `undefined` or the operand is `NaN`. An operand
that is still a string gives a string, and an operand that is infinite or not an
integer gives a word that is no integer: both are outside the values of the
machine of the embedding. -/
def Instruction.to_numeric (i : Instruction) : Except Err Value :=
  match i.operand with
  | .sym _ => .error .unmodelled
  | .num operand =>
    match i.opcode with
    | none => .ok .nan
    | some opcode =>
      match operand with
      | .int operand =>
        if opcode = -1 then .ok (.num operand) else .ok (.num (opcode * 1000 + operand))
      | .nan => .ok .nan
      | _ => .error .unmodelled

/-- The body of the loop of `assemble` for one instruction: the machine word. -/
def assemble_one (symbol_table : SymbolTable) (instruction : Instruction) : Except Err Value :=
  match instruction.operand.key with
  | none => .error .unmodelled
  | some key =>
    match hasOwnProperty symbol_table key with
    | .error e => .error e
    | .ok true =>
      { instruction with
        operand := .num (.int ((symbol_table.lookup key).getD 0 : Nat)) }.to_numeric
    | .ok false =>
      if instruction.operand.isNaN then .error (.undefinedSymbol key)
      else instruction.to_numeric

/-- `assemble(instructions, symbol_table)`: the memory it writes, from address 0. -/
def assemble (symbol_table : SymbolTable) : List Instruction → Except Err (List Value)
  | [] => .ok []
  | instruction :: rest =>
    match assemble_one symbol_table instruction with
    | .error e => .error e
    | .ok word =>
      match assemble symbol_table rest with
      | .error e => .error e
      | .ok ram => .ok (word :: ram)

/-! ## Decoding and execution -/

/-- An `Instruction` built by `from_numeric`. -/
structure Decoded where
  opcode : Value
  operand : Value
  deriving DecidableEq, Repr

/-- `Instruction.from_numeric(number)`: `operand = number % 1000`, where `%` takes
the sign of the dividend, and `opcode = (number - operand) / 1000`, a division
without remainder. Both are `NaN` when the number is `NaN` or `undefined`. The
host computes the three operations in binary64: they are the operations on
integers written here for every number from `-2 ^ 53` to `2 ^ 53`; beyond, the host
rounds the difference and the quotient, and the opcode is none of `0..9` for the
host as it is here. -/
def from_numeric : Value → Decoded
  | .num number =>
    let operand := Int.tmod number 1000
    { opcode := .num ((number - operand) / 1000), operand := .num operand }
  | _ => { opcode := .nan, operand := .nan }

/-- A line written to the console. -/
inductive Output where
  /-- `console.log(this.accumulator)` of `OUT`. -/
  | log (value : Value)
  /-- `console.log(String.fromCharCode(this.accumulator))` of `OUTC`. -/
  | logChar (code : Value)
  /-- `console.warn(...)` of `INP`. -/
  | warn
  /-- `console.log(this.ram)` of `run`. -/
  | logRam (ram : List Value)
  deriving DecidableEq, Repr

/-- The fields of a `VirtualMachine`, and the lines it has written to the console.
The last element of `stack` and of `input_stack` is the one `pop()` removes. -/
structure VirtualMachine where
  ram : List Value := []
  stack : List Value := []
  input_stack : List Value := []
  accumulator : Value := .num 0
  pc : Value := .num 0
  console : List Output := []
  deriving DecidableEq, Repr

/-- `new VirtualMachine(program_string)`. -/
def VirtualMachine.new (program_string : Str) : Except Err VirtualMachine :=
  match lexical_analysis program_string with
  | .error e => .error e
  | .ok tokens =>
    match syntax_analysis tokens with
    | .error e => .error e
    | .ok (instructions, symbol_table) =>
      match assemble symbol_table instructions with
      | .error e => .error e
      | .ok ram => .ok { ram := ram }

/-- `a + b` on machine values. -/
def Value.add : Value → Value → Value
  | .num a, .num b => .num (a + b)
  | _, _ => .nan

/-- `a - b` on machine values. -/
def Value.sub : Value → Value → Value
  | .num a, .num b => .num (a - b)
  | _, _ => .nan

/-- `a == 0`. -/
def Value.isZero : Value → Bool
  | .num a => a = 0
  | _ => false

/-- `a > 0`. -/
def Value.isPositive : Value → Bool
  | .num a => 0 < a
  | _ => false

/-- `array[index]`: `undefined` unless the index is an integer within the array. -/
def getElem (array : List Value) : Value → Value
  | .num index => if 0 ≤ index then array.getD index.toNat .undefined else .undefined
  | _ => .undefined

/-- `array[index] = value` for an index that is a natural number: an index past
the end lengthens the array, the cells in between reading `undefined`. -/
def setNat (array : List Value) (index : Nat) (value : Value) : List Value :=
  if index < array.length then array.set index value
  else array ++ List.replicate (index - array.length) .undefined ++ [value]

/-- `array[index] = value`. The only assignment of the program is that of `STA`,
whose decoded operand lies in `0..999`; for an index that is no natural number
the elements of the array stay as they are. -/
def setElem (array : List Value) : Value → Value → List Value
  | .num index, value => if 0 ≤ index then setNat array index.toNat value else array
  | _, _ => array

/-- `array.pop()`: the last element, `undefined` when the array is empty. -/
def popValue (array : List Value) : Value := array.getLast?.getD .undefined

/-- `step()`: the machine after the step, and the flag `done`. The `switch`
statements compare with `===`, in the order of their `case` labels. -/
def step (vm : VirtualMachine) : Except Err (VirtualMachine × Bool) :=
  let instruction := from_numeric (getElem vm.ram vm.pc)
  let vm := { vm with pc := vm.pc.add (.num 1) }
  if instruction.opcode = .num 1 then
    .ok ({ vm with accumulator := vm.accumulator.add (getElem vm.ram instruction.operand) }, false)
  else if instruction.opcode = .num 2 then
    .ok ({ vm with accumulator := vm.accumulator.sub (getElem vm.ram instruction.operand) }, false)
  else if instruction.opcode = .num 3 then
    .ok ({ vm with ram := setElem vm.ram instruction.operand vm.accumulator }, false)
  else if instruction.opcode = .num 5 then
    .ok ({ vm with accumulator := getElem vm.ram instruction.operand }, false)
  else if instruction.opcode = .num 6 then
    .ok ({ vm with pc := instruction.operand }, false)
  else if instruction.opcode = .num 7 then
    .ok (if vm.accumulator.isZero then { vm with pc := instruction.operand } else vm, false)
  else if instruction.opcode = .num 8 then
    .ok (if vm.accumulator.isPositive then { vm with pc := instruction.operand } else vm, false)
  else if instruction.opcode = .num 0 then
    if instruction.operand = .num 0 then .ok (vm, true)
    else if instruction.operand = .num 1 then .ok ({ vm with pc := vm.accumulator }, false)
    else .ok (vm, false)
  else if instruction.opcode = .num 9 then
    if instruction.operand = .num 1 then
      .ok ({ vm with
             console := vm.console ++ [.warn]
             accumulator := popValue vm.input_stack
             input_stack := vm.input_stack.dropLast }, false)
    else if instruction.operand = .num 2 then
      .ok ({ vm with console := vm.console ++ [.log vm.accumulator] }, false)
    else if instruction.operand = .num 3 then
      .ok ({ vm with console := vm.console ++ [.logChar vm.accumulator] }, false)
    else .ok (vm, false)
  else if instruction.opcode = .num 4 then
    if instruction.operand = .num 1 then
      .ok ({ vm with accumulator := popValue vm.stack, stack := vm.stack.dropLast }, false)
    else if instruction.operand = .num 2 then
      .ok ({ vm with stack := vm.stack ++ [vm.accumulator] }, false)
    else if instruction.operand = .num 3 then
      .ok ({ vm with accumulator := vm.pc }, false)
    else .ok (vm, false)
  else .error (.invalidOpcode vm.pc vm.accumulator vm.ram vm.stack)

/-- The `while` loop of `run`, for at most `fuel` steps: `none` when the machine
has not halted within them. -/
def loop : Nat → VirtualMachine → Option (Except Err VirtualMachine)
  | 0, _ => none
  | fuel + 1, vm =>
    match step vm with
    | .error e => some (.error e)
    | .ok (vm, true) => some (.ok vm)
    | .ok (vm, false) => loop fuel vm

/-- `run()`, its loop bounded by `fuel` steps. -/
def run (fuel : Nat) (vm : VirtualMachine) : Option (Except Err VirtualMachine) :=
  loop fuel { vm with pc := .num 0, console := vm.console ++ [.logRam vm.ram] }

/-- The output events among the console lines: the values written by `OUT` and `OUTC`. -/
def outputEvents (console : List Output) : List Output :=
  console.filter (fun line => match line with | .log _ => true | .logChar _ => true | _ => false)

/-! ## Lines and instructions -/

/-- The tokens `lexical_analysis` makes of the lexemes of one line, the appended
terminator apart. -/
def lineTokens (line : Str) : List Token :=
  (split ' ' (preprocess line)).filterMap (fun lexeme => (classify lexeme).toOption)

/-- The instruction the token loop of `syntax_analysis` builds from the tokens of
one line, starting from a new instruction. -/
def lineInstruction (line : Str) : Instruction :=
  (lineTokens line).foldl dispatch {}

/-- A line one of whose lexemes is a mnemonic or is not a number. -/
def carriesInstruction (line : Str) : Bool :=
  (split ' ' (preprocess line)).any (fun lexeme => KEYWORDS.contains lexeme || isNaN lexeme)

/-- A non-empty line in the words of the specification: a line containing at least
one lexeme that is not whitespace. -/
def isNonEmptyLine (line : Str) : Bool :=
  (split ' ' (preprocess line)).any (fun lexeme => !lexeme.all isStrWhiteSpace)

/-! ## The run loop -/

theorem loop_succ (fuel : Nat) (vm : VirtualMachine) (r : Except Err VirtualMachine)
    (h : loop fuel vm = some r) : loop (fuel + 1) vm = some r := by
  induction fuel generalizing vm with
  | zero => simp [loop] at h
  | succ n ih =>
    rw [loop] at h
    rw [loop]
    split <;> simp_all

theorem loop_mono (fuel more : Nat) (vm : VirtualMachine) (r : Except Err VirtualMachine)
    (h : loop fuel vm = some r) : loop (fuel + more) vm = some r := by
  induction more with
  | zero => simpa using h
  | succ n ih => exact loop_succ _ _ _ ih

/-- A run that halts within `fuel` steps halts with the same result within any larger bound. -/
theorem run_of_le (fuel fuel' : Nat) (hle : fuel ≤ fuel') (vm : VirtualMachine)
    (r : Except Err VirtualMachine) (h : run fuel vm = some r) : run fuel' vm = some r := by
  obtain ⟨more, rfl⟩ := Nat.exists_eq_add_of_le hle
  exact loop_mono _ _ _ _ h

/-! ## Lemmas on decoding and on single steps -/

theorem getElem_num (ram : List Value) (pc : Value) (w : Int) (h : getElem ram pc = .num w) :
    ∃ n : Int, pc = .num n ∧ 0 ≤ n := by
  cases pc with
  | num n =>
    refine ⟨n, rfl, ?_⟩
    by_contra hn
    simp [getElem, hn] at h
  | nan => simp [getElem] at h
  | undefined => simp [getElem] at h

theorem from_numeric_word (o p : Int) (ho : 0 ≤ o) (hp : 0 ≤ p ∧ p ≤ 999) :
    from_numeric (.num (o * 1000 + p)) = { opcode := .num o, operand := .num p } := by
  have h2 : Int.tmod (o * 1000 + p) 1000 = p := by
    rw [Int.tmod_eq_emod (by omega) (by omega)]; omega
  have h3 : (o * 1000 + p - p) / 1000 = o := by omega
  simp [from_numeric, h2, h3]

theorem from_numeric_eq_iff (v : Value) (o p : Int) (ho : 0 < o) (hp : 0 ≤ p ∧ p ≤ 999) :
    from_numeric v = { opcode := .num o, operand := .num p } ↔ v = .num (o * 1000 + p) := by
  constructor
  · intro h
    cases v with
    | num w =>
      simp only [from_numeric, Decoded.mk.injEq, Value.num.injEq] at h
      have hw := Int.tmod_add_tdiv w 1000
      congr 1
      omega
    | nan => simp [from_numeric] at h
    | undefined => simp [from_numeric] at h
  · rintro rfl
    exact from_numeric_word o p (by omega) hp

theorem from_numeric_eq_ret (v : Value) :
    from_numeric v = { opcode := .num 0, operand := .num 1 } ↔ v = .num 1 := by
  constructor
  · intro h
    cases v with
    | num w =>
      simp only [from_numeric, Decoded.mk.injEq, Value.num.injEq] at h
      have hw := Int.tmod_add_tdiv w 1000
      congr 1
      omega
    | nan => simp [from_numeric] at h
    | undefined => simp [from_numeric] at h
  · rintro rfl
    decide

theorem step_eq_RET (vm : VirtualMachine)
    (h : from_numeric (getElem vm.ram vm.pc) = { opcode := .num 0, operand := .num 1 }) :
    step vm = .ok ({ vm with pc := vm.accumulator }, false) := by
  unfold step
  simp only [h]
  simp

theorem step_eq_BRP (vm : VirtualMachine) (operand : Value)
    (h : from_numeric (getElem vm.ram vm.pc) = { opcode := .num 8, operand := operand }) :
    step vm = .ok (if vm.accumulator.isPositive then { vm with pc := operand }
      else { vm with pc := vm.pc.add (.num 1) }, false) := by
  unfold step
  simp only [h]
  simp

theorem step_eq_PSH (vm : VirtualMachine)
    (h : from_numeric (getElem vm.ram vm.pc) = { opcode := .num 4, operand := .num 2 }) :
    step vm = .ok ({ vm with
                     pc := vm.pc.add (.num 1)
                     stack := vm.stack ++ [vm.accumulator] }, false) := by
  unfold step
  simp only [h]
  simp

theorem step_eq_POP (vm : VirtualMachine)
    (h : from_numeric (getElem vm.ram vm.pc) = { opcode := .num 4, operand := .num 1 }) :
    step vm = .ok ({ vm with
                     pc := vm.pc.add (.num 1)
                     accumulator := popValue vm.stack
                     stack := vm.stack.dropLast }, false) := by
  unfold step
  simp only [h]
  simp

/-! ## The instruction codec -/

/-- C1: for every opcode `o` in `0..9` and operand `p` in `0..999`, decoding the
word that `new Instruction(o, p).to_numeric()` gives returns opcode `o` and
operand `p`. -/
theorem from_numeric_to_numeric (o p : Int) (ho : 0 ≤ o ∧ o ≤ 9) (hp : 0 ≤ p ∧ p ≤ 999) :
    (Instruction.to_numeric { opcode := some o, operand := .num p }).map from_numeric =
      .ok { opcode := .num o, operand := .num p } := by
  have h1 : o ≠ -1 := by omega
  simp [Instruction.to_numeric, h1, Except.map, from_numeric_word o p ho.1 hp]

/-- The round trip at opcode `9`, operand `999`. -/
theorem from_numeric_to_numeric_witness :
    (Instruction.to_numeric { opcode := some 9, operand := .num 999 }).map from_numeric =
      .ok { opcode := .num 9, operand := .num 999 } :=
  from_numeric_to_numeric 9 999 (by decide) (by decide)

/-! ## Scenarios and single instructions -/

/-- C7: the source `LDA x / ADD y / OUT / HLT / x DAT 5 / y DAT 6` assembles to a
memory of six words; `run` on it with an empty input queue halts (within any bound
of at least four steps) having written, after the memory dump that `run` logs
first, the single output event `11`, with accumulator `11` and program counter `4`,
one past the `HLT` word at address `3`. -/
theorem run_add_scenario :
    ∃ vm final : VirtualMachine,
      VirtualMachine.new "LDA x\nADD y\nOUT\nHLT\nx DAT 5\ny DAT 6\n".toList = .ok vm ∧
      vm.ram = [.num 5004, .num 1005, .num 9002, .num 0, .num 5, .num 6] ∧
      vm.ram.length = 6 ∧ vm.input_stack = [] ∧
      (∀ fuel, 4 ≤ fuel → run fuel vm = some (.ok final)) ∧
      final.console = [.logRam vm.ram, .log (.num 11)] ∧
      outputEvents final.console = [.log (.num 11)] ∧
      final.accumulator = .num 11 ∧ final.pc = .num 4 ∧
      getElem final.ram (.num 3) = .num 0 ∧ final.ram = vm.ram := by
  refine ⟨{ ram := [.num 5004, .num 1005, .num 9002, .num 0, .num 5, .num 6] },
    { ram := [.num 5004, .num 1005, .num 9002, .num 0, .num 5, .num 6]
      accumulator := .num 11
      pc := .num 4
      console := [.logRam [.num 5004, .num 1005, .num 9002, .num 0, .num 5, .num 6],
        .log (.num 11)] }, by decide, rfl, rfl, rfl, ?_, rfl, by decide, rfl, rfl, by decide, rfl⟩
  intro fuel hfuel
  exact run_of_le 4 fuel hfuel _ _ (by decide)

/-- The stack scenario, run from any stack and any input queue. -/
theorem run_stack_program (stack input_stack : List Value) :
    run 5 { ram := [.num 5005, .num 4002, .num 4001, .num 9002, .num 0, .num 42]
            stack := stack
            input_stack := input_stack } =
      some (.ok { ram := [.num 5005, .num 4002, .num 4001, .num 9002, .num 0, .num 42]
                  stack := stack
                  input_stack := input_stack
                  accumulator := .num 42
                  pc := .num 5
                  console := [.logRam [.num 5005, .num 4002, .num 4001, .num 9002, .num 0, .num 42],
                    .log (.num 42)] }) := by
  have d0 : from_numeric (.num 5005) = ⟨.num 5, .num 5⟩ := by decide
  have d1 : from_numeric (.num 4002) = ⟨.num 4, .num 2⟩ := by decide
  have d2 : from_numeric (.num 4001) = ⟨.num 4, .num 1⟩ := by decide
  have d3 : from_numeric (.num 9002) = ⟨.num 9, .num 2⟩ := by decide
  have d4 : from_numeric (.num 0) = ⟨.num 0, .num 0⟩ := by decide
  simp [run, loop, step, getElem, Value.add, popValue, d0, d1, d2, d3, d4]

/-- C8: in every machine state whose word at `pc` is `4002` (`PSH`) and whose word
at `pc + 1` is `4001` (`POP`), two steps succeed without halting and leave the
accumulator, the stack and the memory as they were, with the program counter
advanced by two; and the source `LDA x / PSH / POP / OUT / HLT / x DAT 42`, run
from any stack, halts with the single output event `42`. -/
theorem step_PSH_POP :
    (∀ (vm : VirtualMachine) (n : Int), vm.pc = .num n →
      getElem vm.ram (.num n) = .num 4002 → getElem vm.ram (.num (n + 1)) = .num 4001 →
      ∃ vm1 vm2 : VirtualMachine, step vm = .ok (vm1, false) ∧ step vm1 = .ok (vm2, false) ∧
        vm2.accumulator = vm.accumulator ∧ vm2.stack = vm.stack ∧ vm2.ram = vm.ram ∧
        vm2.pc = .num (n + 2) ∧ vm2.input_stack = vm.input_stack ∧
        vm2.console = vm.console) ∧
    (∃ vm : VirtualMachine,
      VirtualMachine.new "LDA x\nPSH\nPOP\nOUT\nHLT\nx DAT 42\n".toList = .ok vm ∧
      ∀ (stack : List Value) (fuel : Nat), 5 ≤ fuel →
        ∃ final : VirtualMachine, run fuel { vm with stack := stack } = some (.ok final) ∧
          final.console = [.logRam vm.ram, .log (.num 42)] ∧
          outputEvents final.console = [.log (.num 42)] ∧ final.stack = stack) := by
  constructor
  · intro vm n hpc h1 h2
    obtain ⟨ram, stack, inp, acc, pc, console⟩ := vm
    simp only at hpc h1 h2
    subst hpc
    have e1 := step_eq_PSH ⟨ram, stack, inp, acc, .num n, console⟩ (by simp only [h1]; decide)
    have e2 := step_eq_POP ⟨ram, stack ++ [acc], inp, acc, .num (n + 1), console⟩
      (by simp only [h2]; decide)
    refine ⟨_, _, e1, e2, ?_, ?_, rfl, ?_, rfl, rfl⟩
    · simp [popValue]
    · simp
    · simp only [Value.add, Value.num.injEq]; omega
  · refine ⟨{ ram := [.num 5005, .num 4002, .num 4001, .num 9002, .num 0, .num 42] },
      by decide, ?_⟩
    intro stack fuel hfuel
    exact ⟨_, run_of_le 5 fuel hfuel _ _ (run_stack_program stack []), rfl, rfl, rfl⟩

/-- The two steps on the memory `[4002, 4001]` from accumulator `7` and stack `[3]`. -/
theorem step_PSH_POP_witness :
    ∃ vm1 vm2 : VirtualMachine,
      step { ram := [.num 4002, .num 4001], stack := [.num 3], accumulator := .num 7 } =
        .ok (vm1, false) ∧
      step vm1 = .ok (vm2, false) ∧ vm2.accumulator = .num 7 ∧ vm2.stack = [.num 3] ∧
      vm2.ram = [.num 4002, .num 4001] ∧ vm2.pc = .num (0 + 2) ∧ vm2.input_stack = [] ∧
      vm2.console = [] :=
  step_PSH_POP.1 { ram := [.num 4002, .num 4001], stack := [.num 3], accumulator := .num 7 } 0
    rfl (by decide) (by decide)

/-- C9: in every machine state whose word at `pc` decodes to opcode `0` with
operand `1` (`RET`), `step` succeeds without signalling halt, sets the program
counter to the accumulator and leaves the accumulator, the memory, the stack, the
input queue and the console as they were, so that the word fetched next is the one
at the address held in the accumulator. -/
theorem step_RET (vm : VirtualMachine)
    (h : from_numeric (getElem vm.ram vm.pc) = { opcode := .num 0, operand := .num 1 }) :
    ∃ vm', step vm = .ok (vm', false) ∧ vm'.pc = vm.accumulator ∧
      vm'.accumulator = vm.accumulator ∧ vm'.ram = vm.ram ∧ vm'.stack = vm.stack ∧
      vm'.input_stack = vm.input_stack ∧ vm'.console = vm.console ∧
      getElem vm'.ram vm'.pc = getElem vm.ram vm.accumulator :=
  ⟨{ vm with pc := vm.accumulator }, step_eq_RET vm h, rfl, rfl, rfl, rfl, rfl, rfl, rfl⟩

/-- A `RET` step with accumulator `2`: execution resumes at address `2`. -/
theorem step_RET_witness :
    ∃ vm', step { ram := [.num 1, .num 0, .num 9002], accumulator := .num 2 } = .ok (vm', false) ∧
      vm'.pc = .num 2 ∧ vm'.accumulator = .num 2 ∧ vm'.ram = [.num 1, .num 0, .num 9002] ∧
      vm'.stack = [] ∧ vm'.input_stack = [] ∧ vm'.console = [] ∧
      getElem vm'.ram vm'.pc = .num 9002 :=
  step_RET { ram := [.num 1, .num 0, .num 9002], accumulator := .num 2 } (by decide)

/-- C10: in every machine state whose word at `pc` is `8000 + t` with `t` in
`0..999` (`BRP t`), `step` succeeds without signalling halt and sets the program
counter to `t` when the accumulator is a number greater than zero and to the old
`pc + 1` when it is a number that is zero or negative, or is no number; the
accumulator, the memory, the stack, the input queue and the console are unchanged. -/
theorem step_BRP (vm : VirtualMachine) (t : Int) (ht : 0 ≤ t ∧ t ≤ 999)
    (h : getElem vm.ram vm.pc = .num (8000 + t)) :
    ∃ (n : Int) (vm' : VirtualMachine), vm.pc = .num n ∧ step vm = .ok (vm', false) ∧
      (∀ a : Int, vm.accumulator = .num a → 0 < a → vm'.pc = .num t) ∧
      (∀ a : Int, vm.accumulator = .num a → a ≤ 0 → vm'.pc = .num (n + 1)) ∧
      (vm.accumulator = .nan ∨ vm.accumulator = .undefined → vm'.pc = .num (n + 1)) ∧
      vm'.accumulator = vm.accumulator ∧ vm'.ram = vm.ram ∧ vm'.stack = vm.stack ∧
      vm'.input_stack = vm.input_stack ∧ vm'.console = vm.console := by
  obtain ⟨n, hn, -⟩ := getElem_num _ _ _ h
  have hd : from_numeric (getElem vm.ram vm.pc) = { opcode := .num 8, operand := .num t } := by
    rw [h]; exact from_numeric_word 8 t (by omega) ht
  refine ⟨n, _, hn, step_eq_BRP vm _ hd, ?_, ?_, ?_, ?_⟩
  · intro a ha hpos
    simp [ha, Value.isPositive, hpos]
  · intro a ha hle
    have : ¬ 0 < a := by omega
    simp [ha, Value.isPositive, this, hn, Value.add]
  · rintro (ha | ha) <;> simp [ha, Value.isPositive, hn, Value.add]
  · split <;> simp

/-- The boundary of `BRP 7`: accumulators `0` and `-1` fall through to address `2`, accumulator `1` branches to `7`. -/
theorem step_BRP_witness :
    (∃ (n : Int) (vm' : VirtualMachine), (.num 1 : Value) = .num n ∧
      step { ram := [.num 0, .num 8007], pc := .num 1, accumulator := .num 0 } = .ok (vm', false) ∧
      (∀ a : Int, (.num 0 : Value) = .num a → 0 < a → vm'.pc = .num 7) ∧
      (∀ a : Int, (.num 0 : Value) = .num a → a ≤ 0 → vm'.pc = .num (n + 1)) ∧
      ((.num 0 : Value) = .nan ∨ (.num 0 : Value) = .undefined → vm'.pc = .num (n + 1)) ∧
      vm'.accumulator = .num 0 ∧ vm'.ram = [.num 0, .num 8007] ∧ vm'.stack = [] ∧
      vm'.input_stack = [] ∧ vm'.console = []) ∧
    (step { ram := [.num 0, .num 8007], pc := .num 1, accumulator := .num 0 }).map
      (fun r => r.1.pc) = .ok (.num 2) ∧
    (step { ram := [.num 0, .num 8007], pc := .num 1, accumulator := .num (-1) }).map
      (fun r => r.1.pc) = .ok (.num 2) ∧
    (step { ram := [.num 0, .num 8007], pc := .num 1, accumulator := .num 1 }).map
      (fun r => r.1.pc) = .ok (.num 7) :=
  ⟨step_BRP { ram := [.num 0, .num 8007], pc := .num 1, accumulator := .num 0 } 7 (by decide)
    (by decide), by decide, by decide, by decide⟩

/-! ## Lexical analysis -/

theorem firstLongLine_eq_none (index : Nat) (ls : List (List Str)) :
    firstLongLine index ls = none ↔ ∀ elem ∈ ls, elem.length ≤ 4 := by
  induction ls generalizing index with
  | nil => simp [firstLongLine]
  | cons elem rest ih =>
    rw [firstLongLine]
    by_cases h : elem.length > 4
    · simp [h]
    · simp only [h, ↓reduceIte, ih, List.mem_cons, forall_eq_or_imp]
      constructor
      · intro hr; exact ⟨by omega, hr⟩
      · intro hr; exact hr.2

theorem firstLongLine_eq_some (index : Nat) (ls : List (List Str)) (i : Nat) (elem : List Str)
    (h : firstLongLine index ls = some (i, elem)) :
    ∃ k, i = index + k ∧ ls[k]? = some elem ∧ 4 < elem.length ∧
      ∀ j e, j < k → ls[j]? = some e → e.length ≤ 4 := by
  induction ls generalizing index with
  | nil => simp [firstLongLine] at h
  | cons e rest ih =>
    rw [firstLongLine] at h
    by_cases hl : e.length > 4
    · simp only [hl, ↓reduceIte, Option.some.injEq, Prod.mk.injEq] at h
      obtain ⟨rfl, rfl⟩ := h
      exact ⟨0, rfl, by simp, hl, by intro j e hj; omega⟩
    · simp only [hl, ↓reduceIte] at h
      obtain ⟨k, hk, hget, hlen, hbefore⟩ := ih (index + 1) h
      refine ⟨k + 1, by omega, by simpa using hget, hlen, ?_⟩
      intro j e' hj hje
      cases j with
      | zero =>
        simp only [List.getElem?_cons_zero, Option.some.injEq] at hje
        subst hje; omega
      | succ j =>
        simp only [List.getElem?_cons_succ] at hje
        exact hbefore j e' (by omega) hje

/-- The classification of a lexeme throws nothing. -/
theorem classify_error (lexeme : Str) (e : Err) : classify lexeme ≠ .error e := by
  intro h
  unfold classify at h
  split at h
  · cases h
  · split at h
    · cases h
    · split at h <;> cases h

theorem tokenize_error (ls : List Str) (e : Err) : tokenize ls ≠ .error e := by
  intro h
  induction ls with
  | nil => cases h
  | cons l rest ih =>
    rw [tokenize] at h
    split at h
    · rename_i e' he
      exact classify_error _ _ he
    · split at h
      · rename_i e' he
        cases h
        exact ih he
      · cases h

/-- C6: `lexical_analysis` throws exactly when some line, preprocessed and split on
single spaces, has more than three lexemes; the error then carries the index of the
first such line and its elements (the lexemes and the terminator), and no token
list is returned. It throws no other error. -/
theorem lexical_analysis_error (program_string : Str) :
    ((∃ index elems, lexical_analysis program_string = .error (.tooManyElements index elems)) ↔
      ∃ line ∈ split '\n' program_string, 3 < (split ' ' (preprocess line)).length) ∧
    (∀ e, lexical_analysis program_string = .error e →
      ∃ index line, (split '\n' program_string)[index]? = some line ∧
        3 < (split ' ' (preprocess line)).length ∧
        (∀ i l, i < index → (split '\n' program_string)[i]? = some l →
          (split ' ' (preprocess l)).length ≤ 3) ∧
        e = .tooManyElements index (split ' ' (preprocess line) ++ [['\n']])) ∧
    ((∃ line ∈ split '\n' program_string, 3 < (split ' ' (preprocess line)).length) →
      ∀ tokens, lexical_analysis program_string ≠ .ok tokens) := by
  have key : ∀ e, lexical_analysis program_string = .error e →
      ∃ index line, (split '\n' program_string)[index]? = some line ∧
        3 < (split ' ' (preprocess line)).length ∧
        (∀ i l, i < index → (split '\n' program_string)[i]? = some l →
          (split ' ' (preprocess l)).length ≤ 3) ∧
        e = .tooManyElements index (split ' ' (preprocess line) ++ [['\n']]) := by
    intro e he
    unfold lexical_analysis at he
    simp only at he
    split at he
    · rename_i index elem hfirst
      obtain ⟨k, hk, hget, hlen, hbefore⟩ := firstLongLine_eq_some _ _ _ _ hfirst
      simp only [lexemes, List.getElem?_map, Option.map_eq_some'] at hget
      obtain ⟨line, hline, rfl⟩ := hget
      refine ⟨k, line, hline, ?_, ?_, ?_⟩
      · simp only [List.length_append, List.length_singleton] at hlen; omega
      · intro i l hi hl
        have := hbefore i (split ' ' (preprocess l) ++ [['\n']]) hi
          (by simp [lexemes, List.getElem?_map, hl])
        simp only [List.length_append, List.length_singleton] at this; omega
      · cases he
        simp [hk]
    · exact absurd he (tokenize_error _ _)
  have throws : (∃ line ∈ split '\n' program_string, 3 < (split ' ' (preprocess line)).length) →
      ∃ index elems, lexical_analysis program_string = .error (.tooManyElements index elems) := by
    rintro ⟨line, hmem, hlen⟩
    unfold lexical_analysis
    simp only
    split
    · exact ⟨_, _, rfl⟩
    · rename_i hnone
      rw [firstLongLine_eq_none] at hnone
      have := hnone (split ' ' (preprocess line) ++ [['\n']])
        (by simp only [lexemes, List.mem_map]; exact ⟨line, hmem, rfl⟩)
      simp only [List.length_append, List.length_singleton] at this
      omega
  refine ⟨⟨?_, throws⟩, key, ?_⟩
  · rintro ⟨index, elems, h⟩
    obtain ⟨i, line, hline, hlen, -, -⟩ := key _ h
    exact ⟨line, List.mem_iff_getElem?.2 ⟨i, hline⟩, hlen⟩
  · intro hlong tokens htokens
    obtain ⟨index, elems, h⟩ := throws hlong
    rw [h] at htokens
    cases htokens

/-- A source whose second line has four lexemes is rejected. -/
theorem lexical_analysis_error_witness :
    ∃ index elems, lexical_analysis "LDA x\nADD  1 2 3\nSUB 1 2 3\n".toList =
      .error (.tooManyElements index elems) :=
  (lexical_analysis_error "LDA x\nADD  1 2 3\nSUB 1 2 3\n".toList).1.2
    ⟨"ADD  1 2 3".toList, by decide, by decide⟩

/-! ## Decimal numerals -/

theorem digitChar_spec : ∀ d, d < 10 → digitVal (digitChar d) = d ∧ isDigit (digitChar d) = true := by
  decide

theorem digitsVal_concat (ds : Str) (c : Char) :
    digitsVal (ds ++ [c]) = digitsVal ds * 10 + digitVal c := by
  simp [digitsVal, List.foldl_append]

theorem natDigits_spec (fuel n : Nat) (h : n < fuel) :
    natDigits fuel n ≠ [] ∧ (∀ c ∈ natDigits fuel n, isDigit c = true) ∧
      digitsVal (natDigits fuel n) = n := by
  induction fuel generalizing n with
  | zero => omega
  | succ fuel ih =>
    rw [natDigits]
    by_cases hn : n < 10
    · simp only [hn, ↓reduceIte]
      refine ⟨by simp, ?_, ?_⟩
      · intro c hc
        simp only [List.mem_singleton] at hc
        subst hc
        exact (digitChar_spec n hn).2
      · simp [digitsVal, (digitChar_spec n hn).1]
    · simp only [hn, ↓reduceIte]
      obtain ⟨-, hall, hval⟩ := ih (n / 10) (by omega)
      refine ⟨by simp, ?_, ?_⟩
      · intro c hc
        simp only [List.mem_append, List.mem_singleton] at hc
        rcases hc with hc | rfl
        · exact hall c hc
        · exact (digitChar_spec _ (Nat.mod_lt _ (by omega))).2
      · rw [digitsVal_concat, hval, (digitChar_spec _ (Nat.mod_lt _ (by omega))).1]
        omega

theorem decimalNat_spec (n : Nat) :
    decimalNat n ≠ [] ∧ (∀ c ∈ decimalNat n, isDigit c = true) ∧ digitsVal (decimalNat n) = n :=
  natDigits_spec (n + 1) n (by omega)

theorem isDigit_not_space (c : Char) (h : isDigit c = true) :
    isStrWhiteSpace c = false ∧ c ≠ '+' ∧ c ≠ '-' ∧ c ≠ ' ' ∧ c ≠ '\t' ∧ c ≠ '\n' := by
  simp only [isDigit, Bool.and_eq_true, decide_eq_true_eq] at h
  refine ⟨?_, ?_, ?_, ?_, ?_, ?_⟩
  · simp only [isStrWhiteSpace, Bool.or_eq_false_iff, decide_eq_false_iff_not,
      Bool.and_eq_false_iff]
    omega
  all_goals
    rintro rfl
    simp at h

theorem dropWhile_eq_self {α : Type} (p : α → Bool) (l : List α)
    (h : ∀ a, l.head? = some a → p a = false) : l.dropWhile p = l := by
  cases l with
  | nil => rfl
  | cons a l => simp [List.dropWhile_cons, h a rfl]

theorem trim_eq_self (s : Str) (hfirst : ∀ c, s.head? = some c → isStrWhiteSpace c = false)
    (hlast : ∀ c, s.getLast? = some c → isStrWhiteSpace c = false) : trim s = s := by
  unfold trim
  rw [dropWhile_eq_self _ _ hfirst, dropWhile_eq_self _ _ (by simpa using hlast)]
  simp

theorem isDigits_of_all (s : Str) (hne : s ≠ []) (hall : ∀ c ∈ s, isDigit c = true) :
    isDigits s = true := by
  cases s with
  | nil => exact absurd rfl hne
  | cons c cs => simpa [isDigits] using hall

theorem Number_digits (s : Str) (hne : s ≠ []) (hall : ∀ c ∈ s, isDigit c = true) :
    Number s = integer false (digitsVal s) := by
  have htrim : trim s = s := by
    apply trim_eq_self
    · intro c hc
      exact (isDigit_not_space c (hall c (List.mem_of_mem_head? hc))).1
    · intro c hc
      exact (isDigit_not_space c (hall c (List.mem_of_mem_getLast? hc))).1
  unfold Number
  rw [htrim]
  cases s with
  | nil => exact absurd rfl hne
  | cons c cs =>
    have hc := isDigit_not_space c (hall c (List.mem_cons_self _ _))
    split
    · rename_i heq; cases heq
    · rename_i heq; cases heq; exact absurd rfl hc.2.1
    · rename_i heq; cases heq; exact absurd rfl hc.2.2.1
    · simp [isDigits_of_all _ hne hall]

theorem Number_minus_digits (s : Str) (hne : s ≠ []) (hall : ∀ c ∈ s, isDigit c = true) :
    Number ('-' :: s) = integer true (digitsVal s) := by
  have htrim : trim ('-' :: s) = '-' :: s := by
    apply trim_eq_self
    · intro c hc
      simp only [List.head?_cons, Option.some.injEq] at hc
      subst hc; decide
    · intro c hc
      rcases List.mem_cons.1 (List.mem_of_mem_getLast? hc) with rfl | hmem
      · decide
      · exact (isDigit_not_space c (hall c hmem)).1
  unfold Number
  rw [htrim]
  simp [isDigits_of_all _ hne hall]

/-- The number of an integer written in decimal is the binary64 value nearest to it. -/
theorem Number_decimal_integer (k : Int) :
    Number (decimal k) = integer (decide (k < 0)) k.natAbs := by
  cases k with
  | ofNat n =>
    obtain ⟨hne, hall, hval⟩ := decimalNat_spec n
    have hneg : decide (Int.ofNat n < 0) = false := by simp
    rw [hneg]
    simp only [decimal, Number_digits _ hne hall, hval]
    rfl
  | negSucc n =>
    obtain ⟨hne, hall, hval⟩ := decimalNat_spec (n + 1)
    have hneg : decide (Int.negSucc n < 0) = true := by
      simp [Int.negSucc_lt_zero]
    rw [hneg]
    simp only [decimal, Number_minus_digits _ hne hall, hval, Int.natAbs_negSucc]

theorem ofSignificand_ne_nan (negative : Bool) (significand : Nat) (exponent : Int) :
    ofSignificand negative significand exponent ≠ .nan := by
  unfold ofSignificand
  split
  · split
    · exact fun h => NumParse.noConfusion h
    · exact fun h => NumParse.noConfusion h
  · split
    · exact fun h => NumParse.noConfusion h
    · split
      · exact fun h => NumParse.noConfusion h
      · exact fun h => NumParse.noConfusion h

theorem round64_ne_nan (negative : Bool) (p q : Nat) : round64 negative p q ≠ .nan := by
  unfold round64
  split
  · exact fun h => NumParse.noConfusion h
  · exact ofSignificand_ne_nan _ _ _

theorem integer_ne_nan (negative : Bool) (n : Nat) : integer negative n ≠ .nan := by
  unfold integer
  split
  · simp
  · exact round64_ne_nan _ _ _

theorem isNaN_decimal (k : Int) : isNaN (decimal k) = false := by
  simp [isNaN, Number_decimal_integer, integer_ne_nan]

theorem integer_of_le (negative : Bool) (n : Nat) (h : n ≤ 2 ^ 53) :
    integer negative n = .int (signed negative n) := by
  rw [integer, if_pos h]

/-- An integer of at most `2 ^ 53` in size, written in decimal, is read back as it is. -/
theorem Number_decimal (k : Int) (hk : -2 ^ 53 ≤ k ∧ k ≤ 2 ^ 53) :
    Number (decimal k) = .int k := by
  have hn : k.natAbs ≤ 2 ^ 53 := by
    have h53 : ((2 : Int) ^ 53) = 9007199254740992 := by norm_num
    have h53n : ((2 : Nat) ^ 53) = 9007199254740992 := by norm_num
    rw [h53] at hk
    rw [h53n]
    omega
  rw [Number_decimal_integer, integer_of_le _ _ hn]
  congr 1
  by_cases hneg : k < 0
  · simp only [signed, hneg, decide_True, if_true]
    omega
  · simp only [signed, hneg, decide_False]
    simp only [Bool.false_eq_true, if_false]
    omega


theorem decimal_chars (k : Int) :
    decimal k ≠ [] ∧ ∀ c ∈ decimal k, isDigit c = true ∨ c = '-' := by
  cases k with
  | ofNat n =>
    obtain ⟨hne, hall, -⟩ := decimalNat_spec n
    exact ⟨hne, fun c hc => Or.inl (hall c hc)⟩
  | negSucc n =>
    obtain ⟨-, hall, -⟩ := decimalNat_spec (n + 1)
    refine ⟨by simp [decimal], fun c hc => ?_⟩
    rcases List.mem_cons.1 hc with rfl | hmem
    · exact Or.inr rfl
    · exact Or.inl (hall c hmem)

theorem decimal_no_separator (k : Int) (c : Char) (hc : c ∈ decimal k) :
    c ≠ ' ' ∧ c ≠ '\t' ∧ c ≠ '\n' := by
  rcases (decimal_chars k).2 c hc with h | rfl
  · exact ⟨(isDigit_not_space c h).2.2.2.1, (isDigit_not_space c h).2.2.2.2.1,
      (isDigit_not_space c h).2.2.2.2.2⟩
  · decide

theorem split_of_not_mem (sep : Char) (s : Str) (h : sep ∉ s) : split sep s = [s] := by
  induction s with
  | nil => rfl
  | cons c cs ih =>
    simp only [List.mem_cons, not_or] at h
    rw [split, if_neg (Ne.symm h.1), ih h.2]

theorem collapse_of_not_mem (prev : Char) (s : Str) (h : ' ' ∉ s) : collapse prev s = s := by
  induction s generalizing prev with
  | nil => rfl
  | cons c cs ih =>
    simp only [List.mem_cons, not_or] at h
    rw [collapse, if_neg (fun hp => h.1 hp.2.symm), ih _ h.2]

theorem lexemes_DAT (k : Int) :
    lexemes ("DAT ".toList ++ decimal k) = [["DAT".toList, decimal k, ['\n']]] := by
  have hsp : ' ' ∉ decimal k := fun h => (decimal_no_separator k _ h).1 rfl
  have htab : ∀ c ∈ decimal k, (if c = '\t' then ' ' else c) = c := fun c hc => by
    rw [if_neg (decimal_no_separator k _ hc).2.1]
  have hnl : '\n' ∉ 'D' :: 'A' :: 'T' :: ' ' :: decimal k := by
    intro h
    simp only [List.mem_cons] at h
    rcases h with h | h | h | h | h
    · exact absurd h (by decide)
    · exact absurd h (by decide)
    · exact absurd h (by decide)
    · exact absurd h (by decide)
    · exact (decimal_no_separator k _ h).2.2 rfl
  have hmap : (decimal k).map (fun c => if c = '\t' then ' ' else c) = decimal k := by
    conv_rhs => rw [← List.map_id (decimal k)]
    exact List.map_congr_left htab
  have hpre : preprocess ('D' :: 'A' :: 'T' :: ' ' :: decimal k) =
      'D' :: 'A' :: 'T' :: ' ' :: decimal k := by
    have h0 : ('D' :: 'A' :: 'T' :: ' ' :: decimal k).map (fun c => if c = '\t' then ' ' else c) =
        'D' :: 'A' :: 'T' :: ' ' :: decimal k := by
      simp only [List.map_cons, hmap]
      rfl
    rw [preprocess, h0]
    simp only [collapse]
    rw [collapse_of_not_mem _ _ hsp]
    rfl
  have hsplit : split ' ' ('D' :: 'A' :: 'T' :: ' ' :: decimal k) = [['D', 'A', 'T'], decimal k] := by
    simp only [split, split_of_not_mem _ _ hsp]
    rfl
  show lexemes ('D' :: 'A' :: 'T' :: ' ' :: decimal k) = _
  rw [lexemes, split_of_not_mem _ _ hnl]
  simp only [List.map_cons, List.map_nil, hpre, hsplit]
  rfl

theorem classify_decimal (k : Int) :
    classify (decimal k) = .ok (.LITERAL (Number (decimal k))) := by
  have hkw : ∀ s ∈ KEYWORDS ++ [['\n']], ∀ c, s.head? = some c →
      isDigit c = false ∧ c ≠ '-' := by decide
  obtain ⟨hne, hall⟩ := decimal_chars k
  have hnot : ∀ s ∈ KEYWORDS ++ [['\n']], decimal k ≠ s := by
    intro s hs heq
    cases hd : decimal k with
    | nil => exact hne hd
    | cons c cs =>
      have := hkw s hs c (by rw [← heq, hd]; rfl)
      rcases hall c (by rw [hd]; exact List.mem_cons_self _ _) with h | h
      · rw [h] at this; exact absurd this.1 (by simp)
      · exact this.2 h
  have h1 : decimal k ∉ KEYWORDS := fun h => hnot _ (List.mem_append_left _ h) rfl
  have h2 : decimal k ≠ ['\n'] := hnot _ (List.mem_append_right _ (List.mem_singleton_self _))
  simp [classify, h1, h2, isNaN_decimal]

/-- C2 (amended): for every integer `k` from `-2 ^ 53` to `2 ^ 53`, the source whose
only line is `DAT k`, with `k` written in decimal, goes through `lexical_analysis`,
`syntax_analysis` and `assemble` to the memory `[k]`: the operand is stored as it
is. -/
theorem assemble_DAT (k : Int) (hk : -2 ^ 53 ≤ k ∧ k ≤ 2 ^ 53) :
    lexical_analysis ("DAT ".toList ++ decimal k) =
      .ok [.OPERATION "DAT".toList, .LITERAL k, .NEW_INSTRUCTION] ∧
    syntax_analysis [.OPERATION "DAT".toList, .LITERAL k, .NEW_INSTRUCTION] =
      .ok ([{ opcode := some (-1), operand := .num k }], []) ∧
    assemble [] [{ opcode := some (-1), operand := .num k }] = .ok [.num k] ∧
    VirtualMachine.new ("DAT ".toList ++ decimal k) = .ok { ram := [.num k] } := by
  have h1 : lexical_analysis ("DAT ".toList ++ decimal k) =
      .ok [.OPERATION "DAT".toList, .LITERAL k, .NEW_INSTRUCTION] := by
    have hc1 : classify "DAT".toList = .ok (.OPERATION "DAT".toList) := by decide
    have hc2 : classify ['\n'] = .ok .NEW_INSTRUCTION := by decide
    rw [lexical_analysis]
    simp only [lexemes_DAT]
    simp only [firstLongLine, List.flatten, List.append_nil, tokenize, hc1, hc2,
      classify_decimal, Number_decimal k hk]
    rfl
  have h2 : syntax_analysis [.OPERATION "DAT".toList, .LITERAL k, .NEW_INSTRUCTION] =
      .ok ([{ opcode := some (-1), operand := .num k }], []) := by
    rfl
  have h3 : assemble [] [{ opcode := some (-1), operand := .num k }] = .ok [.num k] := by
    rfl
  refine ⟨h1, h2, h3, ?_⟩
  rw [VirtualMachine.new, h1]
  simp only [h2, h3]

/-- The decimal writing of `-17`, `0` and `250`, and the image of `DAT -17`. -/
theorem assemble_DAT_witness :
    decimal (-17) = "-17".toList ∧ decimal 0 = "0".toList ∧ decimal 250 = "250".toList ∧
    VirtualMachine.new "DAT -17".toList = .ok { ram := [.num (-17)] } := by
  have h := (assemble_DAT (-17) (by norm_num)).2.2.2
  have e : "DAT ".toList ++ decimal (-17) = "DAT -17".toList := by decide
  rw [e] at h
  exact ⟨by decide, by decide, by decide, h⟩

/-- C2 (counterexample): an integer beyond `2 ^ 53` is not stored as it is written.
The lexeme `9007199254740993`, which writes `2 ^ 53 + 1`, is converted to the
nearest number of the host, `2 ^ 53`, and `DAT 9007199254740993` assembles to the
memory `[9007199254740992]`. -/
theorem assemble_DAT_rounded :
    decimal 9007199254740993 = "9007199254740993".toList ∧
    Number "9007199254740993".toList = .int 9007199254740992 ∧
    lexical_analysis "DAT 9007199254740993".toList =
      .ok [.OPERATION "DAT".toList, .LITERAL 9007199254740992, .NEW_INSTRUCTION] ∧
    VirtualMachine.new "DAT 9007199254740993".toList =
      .ok { ram := [.num 9007199254740992] } := by
  decide

/-! ## Syntax analysis and assembly -/

/-- The token dispatch stores a label reference as operand only next to an opcode. -/
theorem dispatch_symHasOpcode (instruction : Instruction) (token : Token)
    (h : ∀ name, instruction.operand = .sym name → instruction.opcode.isSome = true) :
    ∀ name, (dispatch instruction token).operand = .sym name →
      (dispatch instruction token).opcode.isSome = true := by
  intro name
  cases token with
  | LABEL value =>
    simp only [dispatch]
    split
    · exact h name
    · rename_i hop
      intro _
      cases ho : instruction.opcode with
      | none => simp [ho] at hop
      | some o => rfl
  | OPERATION value =>
    simp only [dispatch]
    split
    · rename_i hop
      cases hx : OPCODES_TO_EXTRA_NUMERIC.lookup value with
      | some extra => simp
      | none =>
        simp only
        intro hsym
        have := h name hsym
        rw [Option.isNone_iff_eq_none] at hop
        rw [hop] at this
        cases this
    · exact h name
  | LITERAL value =>
    simp only [dispatch]
    split
    · exact h name
    · simp
  | NEW_INSTRUCTION => exact h name

theorem collate_symHasOpcode (instructions : List Instruction) (instruction : Instruction)
    (tokens : List Token)
    (hacc : ∀ i ∈ instructions, ∀ name, i.operand = .sym name → i.opcode.isSome = true)
    (hcur : ∀ name, instruction.operand = .sym name → instruction.opcode.isSome = true) :
    ∀ i ∈ collate instructions instruction tokens,
      ∀ name, i.operand = .sym name → i.opcode.isSome = true := by
  induction tokens generalizing instructions instruction with
  | nil => simpa [collate] using hacc
  | cons token rest ih =>
    rw [collate]
    split
    · apply ih
      · intro i hi
        rcases List.mem_append.1 hi with hi | hi
        · exact hacc i hi
        · rw [List.mem_singleton.1 hi]; exact hcur
      · apply dispatch_symHasOpcode
        intro name hname
        cases hname
    · exact ih _ _ hacc (dispatch_symHasOpcode _ _ hcur)

theorem lookup_setProperty_of_some (symbol_table : SymbolTable) (label : Str) (index : Nat)
    (key : Str) (v : Nat) (h : symbol_table.lookup key = some v) :
    (setProperty symbol_table label index).lookup key = some v := by
  unfold setProperty
  split
  · exact h
  · simp [List.lookup_append, h]

theorem collect_labels_ok (symbol_table : SymbolTable) (index : Nat)
    (instructions : List Instruction) (result : SymbolTable)
    (h : collect_labels symbol_table index instructions = .ok result) :
    (∀ key v, symbol_table.lookup key = some v → result.lookup key = some v) ∧
    (symbol_table.lookup protoName = none → result.lookup protoName = none) ∧
    (∀ j instruction label, instructions[j]? = some instruction →
      instruction.label = some label → label ≠ protoName →
      result.lookup label = some (index + j)) := by
  induction instructions generalizing symbol_table index with
  | nil =>
    simp only [collect_labels, Except.ok.injEq] at h
    subst h
    exact ⟨fun _ _ h => h, fun h => h, by simp⟩
  | cons instruction rest ih =>
    rw [collect_labels] at h
    split at h
    · rename_i hnone
      obtain ⟨h1, h2, h3⟩ := ih _ _ h
      refine ⟨h1, h2, ?_⟩
      intro j i label hj hl hp
      cases j with
      | zero =>
        simp only [List.getElem?_cons_zero, Option.some.injEq] at hj
        subst hj
        rw [hnone] at hl
        cases hl
      | succ j =>
        simp only [List.getElem?_cons_succ] at hj
        rw [h3 j i label hj hl hp]
        congr 1
        omega
    · rename_i label hsome
      split at h
      · cases h
      · cases h
      · rename_i hown
        obtain ⟨h1, h2, h3⟩ := ih _ _ h
        have habsent : symbol_table.lookup label = none := by
          unfold hasOwnProperty at hown
          split at hown
          · cases hown
          · simpa using hown
        refine ⟨?_, ?_, ?_⟩
        · intro key v hkey
          exact h1 key v (lookup_setProperty_of_some _ _ _ _ _ hkey)
        · intro hp
          apply h2
          unfold setProperty
          split
          · exact hp
          · rename_i hne
            have : (protoName == label) = false := by
              simpa using fun h => hne h.symm
            rw [List.lookup_append, hp, List.lookup_cons, this]
            rfl
        · intro j i l hj hl hp
          cases j with
          | zero =>
            simp only [List.getElem?_cons_zero, Option.some.injEq] at hj
            subst hj
            rw [hsome] at hl
            cases hl
            apply h1
            rw [setProperty, if_neg hp, List.lookup_append, habsent, List.lookup_cons]
            simp
          | succ j =>
            simp only [List.getElem?_cons_succ] at hj
            rw [h3 j i l hj hl hp]
            congr 1
            omega

theorem assemble_getElem (symbol_table : SymbolTable) (instructions : List Instruction)
    (ram : List Value) (h : assemble symbol_table instructions = .ok ram) (i : Nat)
    (instruction : Instruction) (hi : instructions[i]? = some instruction) :
    ∃ word, assemble_one symbol_table instruction = .ok word ∧ ram[i]? = some word := by
  induction instructions generalizing ram i with
  | nil => simp at hi
  | cons first rest ih =>
    rw [assemble] at h
    split at h
    · cases h
    · rename_i word hword
      split at h
      · cases h
      · rename_i ram' hram
        cases h
        cases i with
        | zero =>
          simp only [List.getElem?_cons_zero, Option.some.injEq] at hi
          subst hi
          exact ⟨word, hword, by simp⟩
        | succ i =>
          simp only [List.getElem?_cons_succ] at hi
          simpa using ih ram' hram i hi

theorem assemble_one_sym (symbol_table : SymbolTable) (instruction : Instruction) (name : Str)
    (word : Value) (hsym : instruction.operand = .sym name)
    (h : assemble_one symbol_table instruction = .ok word) :
    ∃ v, symbol_table.lookup name = some v ∧
      { instruction with operand := .num (v : Int) }.to_numeric = .ok word := by
  unfold assemble_one at h
  simp only [hsym, Operand.key] at h
  split at h
  · cases h
  · rename_i hown
    unfold hasOwnProperty at hown
    split at hown
    · cases hown
    · simp only [Except.ok.injEq, Option.isSome_iff_exists] at hown
      obtain ⟨v, hv⟩ := hown
      exact ⟨v, hv, by simpa [hv] using h⟩
  · split at h
    · cases h
    · simp [Instruction.to_numeric, hsym] at h

/-- C3: for every source that assembles without error, if the instruction at index
`i` of the collated sequence has the label `name` as its operand and the instruction
at index `j` carries the label `name`, then the instruction at `i` has an opcode and
its word is `j` for `DAT` and `opcode * 1000 + j` otherwise, wherever `j` lies
relative to `i`. -/
theorem label_resolution (program_string : Str) (tokens : List Token)
    (instructions : List Instruction) (symbol_table : SymbolTable) (ram : List Value)
    (_hlex : lexical_analysis program_string = .ok tokens)
    (hsyn : syntax_analysis tokens = .ok (instructions, symbol_table))
    (hasm : assemble symbol_table instructions = .ok ram)
    (i j : Nat) (instruction target : Instruction) (name : Str)
    (hi : instructions[i]? = some instruction) (hoperand : instruction.operand = .sym name)
    (hj : instructions[j]? = some target) (hlabel : target.label = some name) :
    ∃ opcode : Int, instruction.opcode = some opcode ∧
      ram[i]? = some (.num (if opcode = -1 then (j : Int) else opcode * 1000 + j)) := by
  unfold syntax_analysis at hsyn
  simp only at hsyn
  split at hsyn
  · cases hsyn
  · rename_i table hcollect
    simp only [Except.ok.injEq, Prod.mk.injEq] at hsyn
    obtain ⟨hinstr, htable⟩ := hsyn
    subst htable
    rw [hinstr] at hcollect
    obtain ⟨-, hproto, hfind⟩ := collect_labels_ok _ _ _ _ hcollect
    obtain ⟨word, hword, hram⟩ := assemble_getElem _ _ _ hasm i instruction hi
    obtain ⟨v, hv, hnum⟩ := assemble_one_sym _ _ name word hoperand hword
    have hne : name ≠ protoName := by
      rintro rfl
      rw [hproto rfl] at hv
      cases hv
    have hvj : v = j := by
      have := hfind j target name hj hlabel hne
      rw [hv] at this
      simpa using this
    subst hvj
    have hop : instruction.opcode.isSome = true := by
      have hall := collate_symHasOpcode [] {} tokens (by simp) (by intro n hn; cases hn)
      rw [hinstr] at hall
      exact hall instruction (List.mem_iff_getElem?.2 ⟨i, hi⟩) name hoperand
    obtain ⟨opcode, hopcode⟩ := Option.isSome_iff_exists.1 hop
    refine ⟨opcode, hopcode, ?_⟩
    rw [hram]
    simp only [Instruction.to_numeric, hopcode] at hnum
    split at hnum
    · rename_i h1
      simp only [Except.ok.injEq] at hnum
      simp [h1, hnum]
    · rename_i h1
      simp only [Except.ok.injEq] at hnum
      simp [h1, hnum]

/-- The source `BRA target / HLT / target DAT 7`: the word of `BRA` is `6000 + 2`. -/
theorem label_resolution_witness :
    ∃ opcode : Int, (Instruction.mk none (some 6) (.sym "target".toList)).opcode = some opcode ∧
      [Value.num 6002, .num 0, .num 7][0]? =
        some (.num (if opcode = -1 then ((2 : Nat) : Int) else opcode * 1000 + (2 : Nat))) :=
  label_resolution "BRA target\nHLT\ntarget DAT 7".toList
    [.OPERATION "BRA".toList, .LABEL "target".toList, .NEW_INSTRUCTION,
     .OPERATION "HLT".toList, .NEW_INSTRUCTION,
     .LABEL "target".toList, .OPERATION "DAT".toList, .LITERAL 7, .NEW_INSTRUCTION]
    [⟨none, some 6, .sym "target".toList⟩, ⟨none, some 0, .num 0⟩,
     ⟨some "target".toList, some (-1), .num 7⟩]
    [("target".toList, 2)] [.num 6002, .num 0, .num 7]
    (by decide) (by decide) (by decide) 0 2 _ _ "target".toList rfl rfl rfl rfl

/-! ## The symbol table away from the two special property names -/

theorem hasOwnProperty_of_no_method (symbol_table : SymbolTable) (key : Str)
    (hmethod : symbol_table.lookup hasOwnPropertyName = none) :
    hasOwnProperty symbol_table key = .ok (symbol_table.lookup key).isSome := by
  simp [hasOwnProperty, hmethod]

theorem getElem?_concat_some {α : Type} (l : List α) (a b : α) (v : Nat)
    (h : (l ++ [a])[v]? = some b) : l[v]? = some b ∨ (v = l.length ∧ a = b) := by
  rcases Nat.lt_trichotomy v l.length with hv | hv | hv
  · left
    rwa [List.getElem?_append_left hv] at h
  · right
    subst hv
    simpa using h
  · rw [List.getElem?_eq_none (by simp; omega)] at h
    cases h

theorem recordsLabels_skip (symbol_table : SymbolTable) (done : List Instruction)
    (first : Instruction) (hnone : first.label = none)
    (h : RecordsLabels symbol_table done) : RecordsLabels symbol_table (done ++ [first]) := by
  intro key v
  rw [h key v]
  constructor
  · rintro ⟨i, hi, hl⟩
    exact ⟨i, by rw [List.getElem?_append_left (List.getElem?_eq_some.1 hi).1]; exact hi, hl⟩
  · rintro ⟨i, hi, hl⟩
    rcases getElem?_concat_some _ _ _ _ hi with hi | ⟨-, rfl⟩
    · exact ⟨i, hi, hl⟩
    · rw [hnone] at hl
      cases hl

theorem recordsLabels_set (symbol_table : SymbolTable) (done : List Instruction)
    (first : Instruction) (label : Str) (hlabel : first.label = some label)
    (hproto : label ≠ protoName) (habsent : symbol_table.lookup label = none)
    (h : RecordsLabels symbol_table done) :
    RecordsLabels (setProperty symbol_table label done.length) (done ++ [first]) := by
  intro key v
  rw [setProperty, if_neg hproto, List.lookup_append]
  constructor
  · intro hv
    cases hk : List.lookup key symbol_table with
    | some w =>
      rw [hk] at hv
      simp only [Option.or_some, Option.some.injEq] at hv
      subst hv
      obtain ⟨i, hi, hl⟩ := (h key w).1 hk
      exact ⟨i, by rw [List.getElem?_append_left (List.getElem?_eq_some.1 hi).1]; exact hi, hl⟩
    | none =>
      rw [hk, List.lookup_cons] at hv
      simp only [Option.none_or] at hv
      split at hv
      · rename_i heq
        simp only [Option.some.injEq] at hv
        subst hv
        have : key = label := by simpa using heq
        subst this
        exact ⟨first, by simp, hlabel⟩
      · simp at hv
  · rintro ⟨i, hi, hl⟩
    rcases getElem?_concat_some _ _ _ _ hi with hi | ⟨rfl, rfl⟩
    · rw [(h key v).2 ⟨i, hi, hl⟩]
      rfl
    · rw [hlabel] at hl
      cases hl
      rw [habsent, List.lookup_cons]
      simp

theorem collect_labels_spec_aux (rest done : List Instruction) (symbol_table : SymbolTable)
    (hinv : RecordsLabels symbol_table done)
    (hmethod : symbol_table.lookup hasOwnPropertyName = none)
    (hsafe : ∀ i ∈ rest, i.label ≠ some protoName ∧ i.label ≠ some hasOwnPropertyName) :
    (∀ result, collect_labels symbol_table done.length rest = .ok result →
      RecordsLabels result (done ++ rest)) ∧
    (∀ e, collect_labels symbol_table done.length rest = .error e →
      ∃ (k : Nat) (instruction : Instruction) (label : Str) (earlier : Nat) (table : SymbolTable),
        rest[k]? = some instruction ∧ instruction.label = some label ∧
        e = .multipleDefinitions label (done.length + k) ∧
        RecordsLabels table (done ++ rest.take k) ∧ table.lookup label = some earlier) := by
  induction rest generalizing done symbol_table with
  | nil =>
    constructor
    · intro result h
      simp only [collect_labels, Except.ok.injEq] at h
      subst h
      simpa using hinv
    · intro e h
      simp [collect_labels] at h
  | cons first rest ih =>
    have hrest : ∀ i ∈ rest, i.label ≠ some protoName ∧ i.label ≠ some hasOwnPropertyName :=
      fun i hi => hsafe i (List.mem_cons_of_mem _ hi)
    have hlen : (done ++ [first]).length = done.length + 1 := by simp
    have happ : ∀ l : List Instruction, done ++ [first] ++ l = done ++ first :: l := by simp
    rw [collect_labels]
    cases hl : first.label with
    | none =>
      simp only
      obtain ⟨ih1, ih2⟩ := ih (done ++ [first]) symbol_table
        (recordsLabels_skip _ _ _ hl hinv) hmethod hrest
      rw [hlen] at ih1 ih2
      constructor
      · intro result h
        rw [← happ]
        exact ih1 result h
      · intro e h
        obtain ⟨k, i, l, a, t, hk, hil, he, ht, hta⟩ := ih2 e h
        refine ⟨k + 1, i, l, a, t, by simpa using hk, hil, ?_, ?_, hta⟩
        · rw [he]; congr 1; omega
        · rw [List.take_succ_cons, ← happ]; exact ht
    | some label =>
      simp only
      rw [hasOwnProperty_of_no_method _ _ hmethod]
      cases hlook : List.lookup label symbol_table with
      | some a =>
        simp only [Option.isSome_some]
        constructor
        · intro result h
          cases h
        · intro e h
          simp only [Except.error.injEq] at h
          subst h
          exact ⟨0, first, label, a, symbol_table, by simp, hl, rfl, by simpa using hinv, hlook⟩
      | none =>
        simp only [Option.isSome_none]
        have hfirst := hsafe first (List.mem_cons_self _ _)
        rw [hl] at hfirst
        have hproto : label ≠ protoName := fun h => hfirst.1 (by rw [h])
        have hown : label ≠ hasOwnPropertyName := fun h => hfirst.2 (by rw [h])
        have hmethod' : (setProperty symbol_table label done.length).lookup hasOwnPropertyName =
            none := by
          rw [setProperty, if_neg hproto, List.lookup_append, hmethod, List.lookup_cons]
          have : (hasOwnPropertyName == label) = false := by
            simpa using fun h => hown h.symm
          rw [this]
          rfl
        obtain ⟨ih1, ih2⟩ := ih (done ++ [first]) (setProperty symbol_table label done.length)
          (recordsLabels_set _ _ _ _ hl hproto hlook hinv) hmethod' hrest
        rw [hlen] at ih1 ih2
        constructor
        · intro result h
          rw [← happ]
          exact ih1 result h
        · intro e h
          obtain ⟨k, i, l, a, t, hk, hil, he, ht, hta⟩ := ih2 e h
          refine ⟨k + 1, i, l, a, t, by simpa using hk, hil, ?_, ?_, hta⟩
          · rw [he]; congr 1; omega
          · rw [List.take_succ_cons, ← happ]; exact ht

theorem getElem?_take_some {α : Type} (l : List α) (k v : Nat) (a : α)
    (h : (l.take k)[v]? = some a) : v < k ∧ l[v]? = some a := by
  have hv : v < k := by
    by_contra hk
    rw [List.getElem?_eq_none (by simp; omega)] at h
    cases h
  exact ⟨hv, by rwa [List.getElem?_take_of_lt hv] at h⟩

theorem recordsLabels_distinct (symbol_table : SymbolTable) (instructions : List Instruction)
    (h : RecordsLabels symbol_table instructions) (a b : Nat) (ia ib : Instruction) (key : Str)
    (hab : a < b) (ha : instructions[a]? = some ia) (hb : instructions[b]? = some ib)
    (hla : ia.label = some key) : ib.label ≠ some key := by
  intro hlb
  have h1 := (h key a).2 ⟨ia, ha, hla⟩
  have h2 := (h key b).2 ⟨ib, hb, hlb⟩
  rw [h1] at h2
  simp only [Option.some.injEq] at h2
  omega

/-- The label loop of `syntax_analysis` on instructions none of which is labelled
`__proto__` or `hasOwnProperty`: on success the table holds exactly the labels, each
with the index of the one instruction that carries it; an error is the
duplicate-definition error, for the first index at which a label recorded earlier
reappears; and the loop fails exactly when two instructions carry the same label. -/
theorem collect_labels_spec (instructions : List Instruction)
    (hsafe : ∀ i ∈ instructions, i.label ≠ some protoName ∧ i.label ≠ some hasOwnPropertyName) :
    (∀ result, collect_labels [] 0 instructions = .ok result →
      RecordsLabels result instructions) ∧
    (∀ e, collect_labels [] 0 instructions = .error e →
      ∃ (k earlier : Nat) (instruction first : Instruction) (label : Str),
        e = .multipleDefinitions label k ∧
        instructions[k]? = some instruction ∧ instruction.label = some label ∧
        earlier < k ∧ instructions[earlier]? = some first ∧ first.label = some label ∧
        ∀ (a b : Nat) (ia ib : Instruction) (key : Str), a < b → b < k →
          instructions[a]? = some ia → instructions[b]? = some ib →
          ia.label = some key → ib.label ≠ some key) ∧
    ((∃ e, collect_labels [] 0 instructions = .error e) ↔
      ∃ (a b : Nat) (ia ib : Instruction) (key : Str), a < b ∧
        instructions[a]? = some ia ∧ instructions[b]? = some ib ∧
        ia.label = some key ∧ ib.label = some key) := by
  have hempty : RecordsLabels [] [] := by
    intro key v
    simp
  obtain ⟨hok, herr⟩ := collect_labels_spec_aux instructions [] [] hempty rfl hsafe
  simp only [List.length_nil, List.nil_append, Nat.zero_add] at hok herr
  have herr' : ∀ e, collect_labels [] 0 instructions = .error e →
      ∃ (k earlier : Nat) (instruction first : Instruction) (label : Str),
        e = .multipleDefinitions label k ∧
        instructions[k]? = some instruction ∧ instruction.label = some label ∧
        earlier < k ∧ instructions[earlier]? = some first ∧ first.label = some label ∧
        ∀ (a b : Nat) (ia ib : Instruction) (key : Str), a < b → b < k →
          instructions[a]? = some ia → instructions[b]? = some ib →
          ia.label = some key → ib.label ≠ some key := by
    intro e he
    obtain ⟨k, i, l, a, t, hk, hil, rfl, ht, hta⟩ := herr e he
    obtain ⟨first, hfirst, hfl⟩ := (ht l a).1 hta
    obtain ⟨hlt, hget⟩ := getElem?_take_some _ _ _ _ hfirst
    refine ⟨k, a, i, first, l, rfl, hk, hil, hlt, hget, hfl, ?_⟩
    intro x y ix iy key hxy hyk hx hy hlx
    exact recordsLabels_distinct t _ ht x y ix iy key hxy
      (by rw [List.getElem?_take_of_lt (by omega)]; exact hx)
      (by rw [List.getElem?_take_of_lt hyk]; exact hy) hlx
  refine ⟨hok, herr', ?_, ?_⟩
  · rintro ⟨e, he⟩
    obtain ⟨k, a, i, first, l, -, hk, hil, hlt, hget, hfl, -⟩ := herr' e he
    exact ⟨a, k, first, i, l, hlt, hget, hk, hfl, hil⟩
  · rintro ⟨a, b, ia, ib, key, hab, ha, hb, hla, hlb⟩
    cases hres : collect_labels [] 0 instructions with
    | error e => exact ⟨e, rfl⟩
    | ok result =>
      exact absurd hlb (recordsLabels_distinct result _ (hok result hres) a b ia ib key hab ha hb hla)




theorem to_numeric_num (label : Option Str) (opcode : Option Int) (n : Int) :
    ∃ word, Instruction.to_numeric { label := label, opcode := opcode, operand := .num n } =
      .ok word := by
  unfold Instruction.to_numeric
  cases opcode with
  | none => exact ⟨_, rfl⟩
  | some o =>
    by_cases h : o = -1
    · exact ⟨.num n, by simp [h]⟩
    · exact ⟨.num (o * 1000 + n), by simp [h]⟩

theorem assemble_one_error_iff (symbol_table : SymbolTable) (instruction : Instruction)
    (hmethod : symbol_table.lookup hasOwnPropertyName = none)
    (hlabel : ∀ name, instruction.operand = .sym name → isNaN name = true)
    (hnum : ∀ n, instruction.operand = .num n → ∃ k : Int, n = .int k) (e : Err) :
    assemble_one symbol_table instruction = .error e ↔
      ∃ name, instruction.operand = .sym name ∧ symbol_table.lookup name = none ∧
        e = .undefinedSymbol name := by
  obtain ⟨label, opcode, operand⟩ := instruction
  unfold assemble_one
  cases operand with
  | num n =>
    obtain ⟨n, rfl⟩ := hnum n rfl
    simp only [Operand.key, Operand.isNaN]
    rw [hasOwnProperty_of_no_method _ _ hmethod]
    cases hl : (List.lookup (decimal n) symbol_table).isSome with
    | true =>
      obtain ⟨w, hw⟩ := to_numeric_num label opcode
        ((List.lookup (decimal n) symbol_table).getD 0 : Nat)
      simp [hw]
    | false =>
      obtain ⟨w, hw⟩ := to_numeric_num label opcode n
      simp [hw]
  | sym name =>
    simp only [Operand.key, Operand.isNaN]
    rw [hasOwnProperty_of_no_method _ _ hmethod]
    have hnan := hlabel name rfl
    cases hl : List.lookup name symbol_table with
    | some v =>
      obtain ⟨w, hw⟩ := to_numeric_num label opcode (v : Nat)
      simp only [Option.isSome_some, Option.getD_some, hw]
      constructor
      · intro h; cases h
      · rintro ⟨n, hn, hnone, -⟩
        cases hn
        rw [hl] at hnone
        cases hnone
    | none =>
      simp only [Option.isSome_none, hnan, ↓reduceIte, Except.error.injEq]
      constructor
      · rintro rfl
        exact ⟨name, rfl, hl, rfl⟩
      · rintro ⟨n, hn, -, rfl⟩
        cases hn
        rfl

theorem assemble_error_iff (symbol_table : SymbolTable) (instructions : List Instruction)
    (hmethod : symbol_table.lookup hasOwnPropertyName = none)
    (hlabels : ∀ i ∈ instructions, ∀ name, i.operand = .sym name → isNaN name = true)
    (hnums : ∀ i ∈ instructions, ∀ n, i.operand = .num n → ∃ k : Int, n = .int k)
    (e : Err) :
    assemble symbol_table instructions = .error e ↔
      ∃ (k : Nat) (instruction : Instruction) (name : Str),
        instructions[k]? = some instruction ∧
        instruction.operand = .sym name ∧ symbol_table.lookup name = none ∧
        e = .undefinedSymbol name ∧
        ∀ (k' : Nat) (i' : Instruction) (n : Str), k' < k → instructions[k']? = some i' →
          i'.operand = .sym n → (symbol_table.lookup n).isSome = true := by
  induction instructions with
  | nil => simp [assemble]
  | cons first rest ih =>
    have hfirst := assemble_one_error_iff symbol_table first hmethod
      (hlabels first (List.mem_cons_self _ _)) (hnums first (List.mem_cons_self _ _))
    have ih' := ih (fun i hi => hlabels i (List.mem_cons_of_mem _ hi))
      (fun i hi => hnums i (List.mem_cons_of_mem _ hi))
    rw [assemble]
    cases h1 : assemble_one symbol_table first with
    | error e1 =>
      obtain ⟨name, hop, hnone, he1⟩ := (hfirst e1).1 h1
      simp only [Except.error.injEq]
      constructor
      · rintro rfl
        exact ⟨0, first, name, by simp, hop, hnone, he1, by intro k' i' n hk; omega⟩
      · rintro ⟨k, i, n, hk, hopi, hni, hei, hbefore⟩
        cases k with
        | zero =>
          simp only [List.getElem?_cons_zero, Option.some.injEq] at hk
          subst hk
          rw [hop] at hopi
          cases hopi
          rw [he1, hei]
        | succ k =>
          have := hbefore 0 first name (by omega) (by simp) hop
          rw [hnone] at this
          cases this
    | ok w =>
      have hok : ∀ name, first.operand = .sym name → (symbol_table.lookup name).isSome = true := by
        intro name hop
        cases hl : List.lookup name symbol_table with
        | some v => rfl
        | none =>
          have := (hfirst (.undefinedSymbol name)).2 ⟨name, hop, hl, rfl⟩
          rw [h1] at this
          cases this
      simp only
      cases h2 : assemble symbol_table rest with
      | error e2 =>
        simp only [Except.error.injEq]
        constructor
        · rintro rfl
          obtain ⟨k, i, n, hk, hopi, hni, hei, hbefore⟩ := (ih' ).1 h2
          refine ⟨k + 1, i, n, by simpa using hk, hopi, hni, hei, ?_⟩
          intro k' i' n' hk' hget hop'
          cases k' with
          | zero =>
            simp only [List.getElem?_cons_zero, Option.some.injEq] at hget
            subst hget
            exact hok n' hop'
          | succ k' =>
            simp only [List.getElem?_cons_succ] at hget
            exact hbefore k' i' n' (by omega) hget hop'
        · rintro ⟨k, i, n, hk, hopi, hni, hei, hbefore⟩
          cases k with
          | zero =>
            simp only [List.getElem?_cons_zero, Option.some.injEq] at hk
            subst hk
            have := hok n hopi
            rw [hni] at this
            cases this
          | succ k =>
            simp only [List.getElem?_cons_succ] at hk
            have := (ih').2 ⟨k, i, n, hk, hopi, hni, hei, fun k' i' n' hk' hget hop' =>
              hbefore (k' + 1) i' n' (by omega) (by simpa using hget) hop'⟩
            rw [h2] at this
            cases this
            rfl
      | ok ram =>
        constructor
        · intro h; cases h
        · rintro ⟨k, i, n, hk, hopi, hni, hei, hbefore⟩
          cases k with
          | zero =>
            simp only [List.getElem?_cons_zero, Option.some.injEq] at hk
            subst hk
            have := hok n hopi
            rw [hni] at this
            cases this
          | succ k =>
            simp only [List.getElem?_cons_succ] at hk
            have := (ih').2 ⟨k, i, n, hk, hopi, hni, hei, fun k' i' n' hk' hget hop' =>
                hbefore (k' + 1) i' n' (by omega) (by simpa using hget) hop'⟩
            rw [h2] at this
            cases this



theorem classify_LABEL (lexeme value : Str) (h : classify lexeme = .ok (.LABEL value)) :
    isNaN value = true := by
  unfold classify at h
  split at h
  · cases h
  · split at h
    · cases h
    · split at h
      · rename_i hnan
        cases h
        exact hnan
      · cases h

theorem tokenize_LABEL (ls : List Str) (tokens : List Token) (h : tokenize ls = .ok tokens)
    (value : Str) (hmem : Token.LABEL value ∈ tokens) : isNaN value = true := by
  induction ls generalizing tokens with
  | nil =>
    simp only [tokenize, Except.ok.injEq] at h
    subst h
    cases hmem
  | cons l rest ih =>
    rw [tokenize] at h
    split at h
    · cases h
    · rename_i token htoken
      split at h
      · cases h
      · rename_i rest_tokens hrest
        cases h
        rcases List.mem_cons.1 hmem with heq | hmem
        · rw [← heq] at htoken
          exact classify_LABEL _ _ htoken
        · exact ih _ hrest hmem

theorem lexical_analysis_LABEL (program_string : Str) (tokens : List Token)
    (h : lexical_analysis program_string = .ok tokens) (value : Str)
    (hmem : Token.LABEL value ∈ tokens) : isNaN value = true := by
  unfold lexical_analysis at h
  simp only at h
  split at h
  · cases h
  · exact tokenize_LABEL _ _ h value hmem

theorem dispatch_sym (instruction : Instruction) (token : Token) (name : Str)
    (h : (dispatch instruction token).operand = .sym name) :
    instruction.operand = .sym name ∨ token = .LABEL name := by
  cases token with
  | LABEL value =>
    simp only [dispatch] at h
    split at h
    · exact Or.inl h
    · simp only [Operand.sym.injEq] at h
      exact Or.inr (by rw [h])
  | OPERATION value =>
    simp only [dispatch] at h
    split at h
    · cases hx : OPCODES_TO_EXTRA_NUMERIC.lookup value with
      | some extra => simp [hx] at h
      | none =>
        simp only [hx] at h
        exact Or.inl h
    · exact Or.inl h
  | LITERAL value =>
    simp only [dispatch] at h
    split at h
    · exact Or.inl h
    · cases h
  | NEW_INSTRUCTION => exact Or.inl h

theorem collate_sym_isNaN (instructions : List Instruction) (instruction : Instruction)
    (tokens : List Token) (htokens : ∀ value, Token.LABEL value ∈ tokens → isNaN value = true)
    (hacc : ∀ i ∈ instructions, ∀ name, i.operand = .sym name → isNaN name = true)
    (hcur : ∀ name, instruction.operand = .sym name → isNaN name = true) :
    ∀ i ∈ collate instructions instruction tokens,
      ∀ name, i.operand = .sym name → isNaN name = true := by
  induction tokens generalizing instructions instruction with
  | nil => simpa [collate] using hacc
  | cons token rest ih =>
    have hrest : ∀ value, Token.LABEL value ∈ rest → isNaN value = true :=
      fun v hv => htokens v (List.mem_cons_of_mem _ hv)
    have hstep : ∀ current : Instruction,
        (∀ name, current.operand = .sym name → isNaN name = true) →
        ∀ name, (dispatch current token).operand = .sym name → isNaN name = true := by
      intro current hc name hname
      rcases dispatch_sym _ _ _ hname with h | h
      · exact hc name h
      · exact htokens name (by rw [h]; exact List.mem_cons_self _ _)
    rw [collate]
    split
    · apply ih _ _ hrest
      · intro i hi
        rcases List.mem_append.1 hi with hi | hi
        · exact hacc i hi
        · rw [List.mem_singleton.1 hi]; exact hcur
      · exact hstep {} (by intro n hn; cases hn)
    · exact ih _ _ hrest hacc (hstep _ hcur)

theorem collect_labels_keys (symbol_table : SymbolTable) (index : Nat)
    (instructions : List Instruction) (result : SymbolTable)
    (h : collect_labels symbol_table index instructions = .ok result) (key : Str)
    (hkey : (result.lookup key).isSome = true) :
    (symbol_table.lookup key).isSome = true ∨ ∃ i ∈ instructions, i.label = some key := by
  induction instructions generalizing symbol_table index with
  | nil =>
    simp only [collect_labels, Except.ok.injEq] at h
    subst h
    exact Or.inl hkey
  | cons first rest ih =>
    rw [collect_labels] at h
    split at h
    · rcases ih _ _ h with h' | ⟨i, hi, hl⟩
      · exact Or.inl h'
      · exact Or.inr ⟨i, List.mem_cons_of_mem _ hi, hl⟩
    · rename_i label hlabel
      split at h
      · cases h
      · cases h
      · rcases ih _ _ h with h' | ⟨i, hi, hl⟩
        · unfold setProperty at h'
          split at h'
          · exact Or.inl h'
          · rw [List.lookup_append] at h'
            cases hk : List.lookup key symbol_table with
            | some v => exact Or.inl rfl
            | none =>
              rw [hk, List.lookup_cons] at h'
              simp only [Option.none_or] at h'
              split at h'
              · rename_i heq
                have : key = label := by simpa using heq
                subst this
                exact Or.inr ⟨first, List.mem_cons_self _ _, hlabel⟩
              · simp at h'
        · exact Or.inr ⟨i, List.mem_cons_of_mem _ hi, hl⟩

/-- The symbol-table pass of `syntax_analysis` on a token list none of whose collated
instructions is labelled `__proto__` or `hasOwnProperty`: on success the returned
table holds exactly the labels, each with the index of the one instruction that
carries it; an error is the duplicate-definition error naming the label and the
first index at which a label recorded earlier reappears; and `syntax_analysis`
fails exactly when two collated instructions carry the same label. -/
theorem syntax_analysis_labels (tokens : List Token)
    (hsafe : ∀ i ∈ collate [] {} tokens,
      i.label ≠ some protoName ∧ i.label ≠ some hasOwnPropertyName) :
    (∀ instructions symbol_table, syntax_analysis tokens = .ok (instructions, symbol_table) →
      instructions = collate [] {} tokens ∧
      ∀ (key : Str) (v : Nat), symbol_table.lookup key = some v ↔
        ∃ instruction, instructions[v]? = some instruction ∧ instruction.label = some key) ∧
    (∀ e, syntax_analysis tokens = .error e →
      ∃ (k earlier : Nat) (instruction first : Instruction) (label : Str),
        e = .multipleDefinitions label k ∧
        (collate [] {} tokens)[k]? = some instruction ∧ instruction.label = some label ∧
        earlier < k ∧ (collate [] {} tokens)[earlier]? = some first ∧
        first.label = some label ∧
        ∀ (a b : Nat) (ia ib : Instruction) (key : Str), a < b → b < k →
          (collate [] {} tokens)[a]? = some ia → (collate [] {} tokens)[b]? = some ib →
          ia.label = some key → ib.label ≠ some key) ∧
    ((∃ e, syntax_analysis tokens = .error e) ↔
      ∃ (a b : Nat) (ia ib : Instruction) (key : Str), a < b ∧
        (collate [] {} tokens)[a]? = some ia ∧ (collate [] {} tokens)[b]? = some ib ∧
        ia.label = some key ∧ ib.label = some key) := by
  obtain ⟨hok, herr, hiff⟩ := collect_labels_spec (collate [] {} tokens) hsafe
  have hsyn : ∀ e, syntax_analysis tokens = .error e ↔
      collect_labels [] 0 (collate [] {} tokens) = .error e := by
    intro e
    unfold syntax_analysis
    simp only
    cases hc : collect_labels [] 0 (collate [] {} tokens) with
    | error e' => simp
    | ok t => simp
  refine ⟨?_, ?_, ?_⟩
  · intro instructions symbol_table h
    unfold syntax_analysis at h
    simp only at h
    split at h
    · cases h
    · rename_i t ht
      simp only [Except.ok.injEq, Prod.mk.injEq] at h
      obtain ⟨rfl, rfl⟩ := h
      exact ⟨rfl, hok _ ht⟩
  · intro e he
    exact herr e ((hsyn e).1 he)
  · rw [← hiff]
    constructor
    · rintro ⟨e, he⟩
      exact ⟨e, (hsyn e).1 he⟩
    · rintro ⟨e, he⟩
      exact ⟨e, (hsyn e).2 he⟩

/-- Two instructions labelled `x` make `syntax_analysis` fail. -/
theorem syntax_analysis_labels_witness :
    ∃ e, syntax_analysis
      [.LABEL "x".toList, .OPERATION "DAT".toList, .LITERAL 1, .NEW_INSTRUCTION,
       .LABEL "x".toList, .OPERATION "DAT".toList, .LITERAL 2, .NEW_INSTRUCTION] = .error e :=
  (syntax_analysis_labels
    [.LABEL "x".toList, .OPERATION "DAT".toList, .LITERAL 1, .NEW_INSTRUCTION,
     .LABEL "x".toList, .OPERATION "DAT".toList, .LITERAL 2, .NEW_INSTRUCTION]
    (by decide)).2.2.2
    ⟨0, 1, ⟨some "x".toList, some (-1), .num 1⟩, ⟨some "x".toList, some (-1), .num 2⟩,
      "x".toList, by decide, by decide, by decide, rfl, rfl⟩

/-- The errors of `assemble` on the instructions and symbol table that
`lexical_analysis` and `syntax_analysis` give for a source none of whose
instructions is labelled `hasOwnProperty` and all of whose numeric operands are
integers: `assemble` fails with `e` exactly when
`e` is the undefined-symbol error naming the operand of the first instruction whose
operand is a label that is no key of the symbol table. -/
theorem assemble_undefined_symbol (program_string : Str) (tokens : List Token)
    (instructions : List Instruction) (symbol_table : SymbolTable)
    (hlex : lexical_analysis program_string = .ok tokens)
    (hsyn : syntax_analysis tokens = .ok (instructions, symbol_table))
    (hsafe : ∀ i ∈ instructions, i.label ≠ some hasOwnPropertyName)
    (hnums : ∀ i ∈ instructions, ∀ n, i.operand = .num n → ∃ k : Int, n = .int k)
    (e : Err) :
    assemble symbol_table instructions = .error e ↔
      ∃ (k : Nat) (instruction : Instruction) (name : Str),
        instructions[k]? = some instruction ∧
        instruction.operand = .sym name ∧ symbol_table.lookup name = none ∧
        e = .undefinedSymbol name ∧
        ∀ (k' : Nat) (i' : Instruction) (n : Str), k' < k → instructions[k']? = some i' →
          i'.operand = .sym n → (symbol_table.lookup n).isSome = true := by
  unfold syntax_analysis at hsyn
  simp only at hsyn
  split at hsyn
  · cases hsyn
  · rename_i t ht
    simp only [Except.ok.injEq, Prod.mk.injEq] at hsyn
    obtain ⟨hinstr, rfl⟩ := hsyn
    rw [hinstr] at ht
    have hmethod : List.lookup hasOwnPropertyName t = none := by
      cases hl : List.lookup hasOwnPropertyName t with
      | none => rfl
      | some v =>
        rcases collect_labels_keys _ _ _ _ ht hasOwnPropertyName (by rw [hl]; rfl) with h | h
        · cases h
        · obtain ⟨i, hi, hlabel⟩ := h
          exact absurd hlabel (hsafe i hi)
    have hlabels : ∀ i ∈ instructions, ∀ name, i.operand = .sym name → isNaN name = true := by
      rw [← hinstr]
      exact collate_sym_isNaN [] {} tokens (lexical_analysis_LABEL _ _ hlex) (by simp)
        (by intro n hn; cases hn)
    exact assemble_error_iff t instructions hmethod hlabels hnums e

/-- The source `LDA y / x DAT 1`: `assemble` names the undefined symbol `y`. -/
theorem assemble_undefined_symbol_witness :
    assemble [("x".toList, 1)]
      [⟨none, some 5, .sym "y".toList⟩, ⟨some "x".toList, some (-1), .num 1⟩] =
        .error (.undefinedSymbol "y".toList) :=
  (assemble_undefined_symbol "LDA y\nx DAT 1".toList
    [.OPERATION "LDA".toList, .LABEL "y".toList, .NEW_INSTRUCTION,
     .LABEL "x".toList, .OPERATION "DAT".toList, .LITERAL 1, .NEW_INSTRUCTION]
    [⟨none, some 5, .sym "y".toList⟩, ⟨some "x".toList, some (-1), .num 1⟩]
    [("x".toList, 1)] (by decide) (by decide) (by decide)
    (by
      intro i hi n hn
      simp only [List.mem_cons, List.mem_singleton, List.not_mem_nil, or_false] at hi
      rcases hi with rfl | rfl
      · cases hn
      · cases hn
        exact ⟨1, rfl⟩) _).2
    ⟨0, _, "y".toList, rfl, rfl, by decide, rfl, by intro k' i' n hk; omega⟩

/-! ## The two special property names -/

/-- C4 (failing input): on the source `__proto__ DAT 1 / __proto__ DAT 2` both
collated instructions carry the label `__proto__`, yet `syntax_analysis` returns
without a duplicate-definition error and with an empty symbol table. -/
theorem syntax_analysis_proto_duplicate :
    ∃ tokens, lexical_analysis "__proto__ DAT 1\n__proto__ DAT 2".toList = .ok tokens ∧
      syntax_analysis tokens =
        .ok ([{ label := some protoName, opcode := some (-1), operand := .num 1 },
              { label := some protoName, opcode := some (-1), operand := .num 2 }], []) ∧
      VirtualMachine.new "__proto__ DAT 1\n__proto__ DAT 2".toList =
        .ok { ram := [.num 1, .num 2] } :=
  ⟨_, rfl, by decide, by decide⟩

/-- C5 (failing input): on the source `hasOwnProperty DAT 1 / LDA y` the operand `y`
of the second instruction is a label that is no key of the symbol table, yet
`assemble` does not throw the undefined-symbol error: its first call of
`symbol_table.hasOwnProperty` throws the host's type error. -/
theorem assemble_hasOwnProperty_label :
    ∃ tokens, lexical_analysis "hasOwnProperty DAT 1\nLDA y".toList = .ok tokens ∧
      syntax_analysis tokens =
        .ok ([{ label := some hasOwnPropertyName, opcode := some (-1), operand := .num 1 },
              { opcode := some 5, operand := .sym "y".toList }], [(hasOwnPropertyName, 0)]) ∧
      assemble [(hasOwnPropertyName, 0)]
        [{ label := some hasOwnPropertyName, opcode := some (-1), operand := .num 1 },
         { opcode := some 5, operand := .sym "y".toList }] = .error .notAFunction :=
  ⟨_, rfl, by decide, by decide⟩

/-! ## Decoding of arbitrary words -/

theorem from_numeric_num (w : Int) :
    from_numeric (.num w) = { opcode := .num (Int.tdiv w 1000), operand := .num (Int.tmod w 1000) } := by
  have h := Int.tmod_add_tdiv w 1000
  have : (w - Int.tmod w 1000) / 1000 = Int.tdiv w 1000 := by omega
  simp [from_numeric, this]

theorem from_numeric_opcode_num (v : Value) (k : Int)
    (h : (from_numeric v).opcode = .num k) : ∃ w, v = .num w := by
  cases v with
  | num w => exact ⟨w, rfl⟩
  | nan => simp [from_numeric] at h
  | undefined => simp [from_numeric] at h

theorem tdiv_tmod_nonneg (w : Int) (hw : 0 ≤ w) :
    Int.tdiv w 1000 = w / 1000 ∧ Int.tmod w 1000 = w % 1000 :=
  ⟨Int.tdiv_eq_ediv hw (by omega), Int.tmod_eq_emod hw (by omega)⟩

theorem tdiv_tmod_neg (w : Int) (hw : w < 0) :
    Int.tdiv w 1000 = -((-w) / 1000) ∧ Int.tmod w 1000 = -((-w) % 1000) := by
  have h1 : Int.tdiv w 1000 = -(Int.tdiv (-w) 1000) := by
    rw [Int.neg_tdiv, neg_neg]
  have h2 : Int.tmod w 1000 = -(Int.tmod (-w) 1000) := by
    have e1 := Int.tmod_add_tdiv w 1000
    have e2 := Int.tmod_add_tdiv (-w) 1000
    rw [Int.neg_tdiv] at e2
    omega
  rw [h1, h2, (tdiv_tmod_nonneg (-w) (by omega)).1, (tdiv_tmod_nonneg (-w) (by omega)).2]
  exact ⟨rfl, rfl⟩

/-- C11, amended: for every integer word `w` from `-2 ^ 53` to `2 ^ 53`, the range
in which the host computes the remainder, the difference and the quotient without
rounding, `from_numeric` gives integers `opcode` and `operand` with
`w = opcode * 1000 + operand` and `opcode = (w - operand) / 1000`, where the operand
is the remainder of the truncating division: it lies in `-999..999`, is the
non-negative remainder `w mod 1000` for `w ≥ 0`, and is `-((-w) mod 1000)`, never
positive, for `w < 0`. -/
theorem from_numeric_truncates (w : Int) (_hw : -2 ^ 53 ≤ w ∧ w ≤ 2 ^ 53) :
    ∃ opcode operand : Int,
      from_numeric (.num w) = { opcode := .num opcode, operand := .num operand } ∧
      w = opcode * 1000 + operand ∧ opcode = (w - operand) / 1000 ∧
      -999 ≤ operand ∧ operand ≤ 999 ∧
      (0 ≤ w → operand = w % 1000 ∧ opcode = w / 1000 ∧ 0 ≤ operand) ∧
      (w < 0 → operand = -((-w) % 1000) ∧ opcode = -((-w) / 1000) ∧ operand ≤ 0) := by
  refine ⟨Int.tdiv w 1000, Int.tmod w 1000, from_numeric_num w, ?_⟩
  have h := Int.tmod_add_tdiv w 1000
  rcases lt_or_le w 0 with hw | hw
  · obtain ⟨h1, h2⟩ := tdiv_tmod_neg w hw
    rw [h1, h2] at h ⊢
    refine ⟨by omega, by omega, by omega, by omega, fun h0 => by omega, fun _ => ⟨rfl, rfl, by omega⟩⟩
  · obtain ⟨h1, h2⟩ := tdiv_tmod_nonneg w hw
    rw [h1, h2] at h ⊢
    refine ⟨by omega, by omega, by omega, by omega, fun _ => ⟨rfl, rfl, by omega⟩, fun h0 => by omega⟩

/-- The decoding of the words `-3005` and `9007199254740992`, the greatest of the range. -/
theorem from_numeric_truncates_witness :
    (∃ opcode operand : Int,
      from_numeric (.num (-3005)) = { opcode := .num opcode, operand := .num operand } ∧
      -3005 = opcode * 1000 + operand ∧ opcode = (-3005 - operand) / 1000 ∧
      -999 ≤ operand ∧ operand ≤ 999 ∧
      ((0 : Int) ≤ -3005 → operand = -3005 % 1000 ∧ opcode = -3005 / 1000 ∧ 0 ≤ operand) ∧
      ((-3005 : Int) < 0 →
        operand = -((- -3005) % 1000) ∧ opcode = -((- -3005) / 1000) ∧ operand ≤ 0)) ∧
    from_numeric (.num (-3005)) = { opcode := .num (-3), operand := .num (-5) } ∧
    from_numeric (.num 9007199254740992) =
      { opcode := .num 9007199254740, operand := .num 992 } :=
  ⟨from_numeric_truncates (-3005) (by norm_num), by decide, by decide⟩

/-- C11, counterexample: `from_numeric(-5)` has operand `-5` and opcode `0`, not the
non-negative remainder `995` with opcode `-1`. -/
theorem from_numeric_negative_word :
    from_numeric (.num (-5)) = { opcode := .num 0, operand := .num (-5) } ∧
    (-5 : Int) % 1000 = 995 ∧
    from_numeric (.num (-5)) ≠
      { opcode := .num ((-5 - (-5) % 1000) / 1000), operand := .num ((-5) % 1000) } := by
  decide

/-! ## Errors and single instructions of `step` -/

theorem opcode_in_range_iff (w : Int) :
    (0 ≤ Int.tdiv w 1000 ∧ Int.tdiv w 1000 ≤ 9) ↔ (-1000 < w ∧ w < 10000) := by
  have h := Int.tmod_add_tdiv w 1000
  rcases lt_or_le w 0 with hw | hw
  · obtain ⟨h1, h2⟩ := tdiv_tmod_neg w hw
    rw [h1]
    omega
  · obtain ⟨h1, h2⟩ := tdiv_tmod_nonneg w hw
    rw [h1]
    omega

theorem step_error_of_opcode (vm : VirtualMachine)
    (h : ∀ k : Int, 0 ≤ k → k ≤ 9 → (from_numeric (getElem vm.ram vm.pc)).opcode ≠ .num k) :
    step vm = .error (.invalidOpcode (vm.pc.add (.num 1)) vm.accumulator vm.ram vm.stack) := by
  unfold step
  simp only [h 0 (by decide) (by decide), h 1 (by decide) (by decide),
    h 2 (by decide) (by decide), h 3 (by decide) (by decide), h 4 (by decide) (by decide),
    h 5 (by decide) (by decide), h 6 (by decide) (by decide), h 7 (by decide) (by decide),
    h 8 (by decide) (by decide), h 9 (by decide) (by decide), ↓reduceIte]

theorem step_ok_of_opcode (vm : VirtualMachine) (k : Int) (hk : 0 ≤ k ∧ k ≤ 9)
    (h : (from_numeric (getElem vm.ram vm.pc)).opcode = .num k) (e : Err) :
    step vm ≠ .error e := by
  obtain ⟨hk0, hk9⟩ := hk
  intro he
  unfold step at he
  simp only [h, Value.num.injEq] at he
  interval_cases k <;> simp at he <;> split_ifs at he

/-- C12: `step` throws exactly when the word at `pc` decodes to an opcode that is
none of `0..9`; for an integer word `w` that is exactly `w ≤ -1000` or `w ≥ 10000`,
and a cell that is `NaN` or `undefined` throws as well. A step that throws returns
no successor state, and the loop of `run` ends with that error. -/
theorem step_error_iff (vm : VirtualMachine) :
    ((∃ e, step vm = .error e) ↔
      ∀ k : Int, 0 ≤ k → k ≤ 9 → (from_numeric (getElem vm.ram vm.pc)).opcode ≠ .num k) ∧
    (∀ w : Int, getElem vm.ram vm.pc = .num w →
      ((∃ e, step vm = .error e) ↔ (w ≤ -1000 ∨ 10000 ≤ w))) ∧
    (getElem vm.ram vm.pc = .nan ∨ getElem vm.ram vm.pc = .undefined → ∃ e, step vm = .error e) ∧
    (∀ e, step vm = .error e →
      (∀ r, step vm ≠ .ok r) ∧ ∀ fuel, loop (fuel + 1) vm = some (.error e)) := by
  have hiff : (∃ e, step vm = .error e) ↔
      ∀ k : Int, 0 ≤ k → k ≤ 9 → (from_numeric (getElem vm.ram vm.pc)).opcode ≠ .num k := by
    constructor
    · rintro ⟨e, he⟩ k hk0 hk9 hop
      exact step_ok_of_opcode vm k ⟨hk0, hk9⟩ hop e he
    · intro h
      exact ⟨_, step_error_of_opcode vm h⟩
  refine ⟨hiff, ?_, ?_, ?_⟩
  · intro w hw
    rw [hiff, hw, from_numeric_num]
    simp only [ne_eq, Value.num.injEq]
    have hr := opcode_in_range_iff w
    constructor
    · intro h
      by_contra hcon
      have : 0 ≤ Int.tdiv w 1000 ∧ Int.tdiv w 1000 ≤ 9 := hr.2 (by omega)
      exact h _ this.1 this.2 rfl
    · intro h k hk0 hk9 heq
      have := hr.1 (by rw [heq]; exact ⟨hk0, hk9⟩)
      omega
  · intro h
    rw [hiff]
    intro k _ _
    rcases h with h | h <;> simp [h, from_numeric]
  · intro e he
    refine ⟨fun r hr => ?_, fun fuel => ?_⟩
    · rw [hr] at he
      cases he
    · simp [loop, he]

/-- The words `10000` and `-1000` throw; `9999` and `-999` do not. -/
theorem step_error_iff_witness :
    (∃ e, step { ram := [.num 10000] } = .error e) ∧
    (∃ e, step { ram := [.num (-1000)] } = .error e) ∧
    (∃ r, step { ram := [.num 9999] } = .ok r) ∧
    (∃ r, step { ram := [.num (-999)] } = .ok r) :=
  ⟨((step_error_iff { ram := [.num 10000] }).2.1 10000 rfl).2 (Or.inr (by decide)),
   ((step_error_iff { ram := [.num (-1000)] }).2.1 (-1000) rfl).2 (Or.inl (by decide)),
   ⟨_, rfl⟩, ⟨_, rfl⟩⟩

theorem step_eq_INP (vm : VirtualMachine)
    (h : from_numeric (getElem vm.ram vm.pc) = { opcode := .num 9, operand := .num 1 }) :
    step vm = .ok ({ vm with
                     pc := vm.pc.add (.num 1)
                     console := vm.console ++ [.warn]
                     accumulator := popValue vm.input_stack
                     input_stack := vm.input_stack.dropLast }, false) := by
  unfold step
  simp only [h]
  simp

theorem step_eq_LDAPC (vm : VirtualMachine)
    (h : from_numeric (getElem vm.ram vm.pc) = { opcode := .num 4, operand := .num 3 }) :
    step vm = .ok ({ vm with
                     pc := vm.pc.add (.num 1)
                     accumulator := vm.pc.add (.num 1) }, false) := by
  unfold step
  simp only [h]
  simp

/-- C13, amended: underflow is not detected. In every machine state whose word at
`pc` is `4001` (`POP`) with an empty stack, or `9001` (`INP`) with an empty input
queue, `step` succeeds without signalling halt: the accumulator becomes
`undefined`, the stack or queue stays empty, the program counter advances by one
and the memory is unchanged (`INP` also writes its warning). -/
theorem step_underflow (vm : VirtualMachine) (n : Int) (hpc : vm.pc = .num n) :
    (getElem vm.ram (.num n) = .num 4001 → vm.stack = [] →
      ∃ vm', step vm = .ok (vm', false) ∧ vm'.accumulator = .undefined ∧ vm'.stack = [] ∧
        vm'.pc = .num (n + 1) ∧ vm'.ram = vm.ram ∧ vm'.input_stack = vm.input_stack ∧
        vm'.console = vm.console) ∧
    (getElem vm.ram (.num n) = .num 9001 → vm.input_stack = [] →
      ∃ vm', step vm = .ok (vm', false) ∧ vm'.accumulator = .undefined ∧
        vm'.input_stack = [] ∧ vm'.pc = .num (n + 1) ∧ vm'.ram = vm.ram ∧
        vm'.stack = vm.stack ∧ vm'.console = vm.console ++ [.warn]) := by
  obtain ⟨ram, stack, inp, acc, pc, console⟩ := vm
  simp only at hpc
  subst hpc
  constructor
  · intro h hs
    simp only at h hs
    subst hs
    exact ⟨_, step_eq_POP _ (by simp only [h]; decide), rfl, rfl, rfl, rfl, rfl, rfl⟩
  · intro h hs
    simp only at h hs
    subst hs
    exact ⟨_, step_eq_INP _ (by simp only [h]; decide), rfl, rfl, rfl, rfl, rfl, rfl⟩

/-- A `POP` on the empty stack from accumulator `7`. -/
theorem step_underflow_witness :
    ∃ vm', step { ram := [.num 4001], accumulator := .num 7 } = .ok (vm', false) ∧
      vm'.accumulator = .undefined ∧ vm'.stack = [] ∧ vm'.pc = .num (0 + 1) ∧
      vm'.ram = [.num 4001] ∧ vm'.input_stack = [] ∧ vm'.console = [] :=
  (step_underflow { ram := [.num 4001], accumulator := .num 7 } 0 rfl).1 (by decide) rfl

/-- C13, counterexample: `POP` on an empty stack and `INP` on an empty input queue
return a successor state, with accumulator `undefined`, and no error. -/
theorem step_underflow_not_fatal :
    step { ram := [.num 4001], accumulator := .num 7 } =
      .ok ({ ram := [.num 4001], accumulator := .undefined, pc := .num 1 }, false) ∧
    step { ram := [.num 9001], accumulator := .num 7 } =
      .ok ({ ram := [.num 9001], accumulator := .undefined, pc := .num 1, console := [.warn] },
        false) := by
  decide

/-- C18: in every machine state with `pc = a` whose word at `a` is `4003` (`LDAPC`),
`step` succeeds without signalling halt, sets the accumulator to `a + 1` and the
program counter to `a + 1`, and leaves the memory, the stack, the input queue and
the console as they were. -/
theorem step_LDAPC (vm : VirtualMachine) (a : Int) (hpc : vm.pc = .num a)
    (h : getElem vm.ram (.num a) = .num 4003) :
    ∃ vm', step vm = .ok (vm', false) ∧ vm'.accumulator = .num (a + 1) ∧
      vm'.pc = .num (a + 1) ∧ vm'.ram = vm.ram ∧ vm'.stack = vm.stack ∧
      vm'.input_stack = vm.input_stack ∧ vm'.console = vm.console := by
  obtain ⟨ram, stack, inp, acc, pc, console⟩ := vm
  simp only at hpc h
  subst hpc
  exact ⟨_, step_eq_LDAPC _ (by simp only [h]; decide), rfl, rfl, rfl, rfl, rfl, rfl⟩

/-- An `LDAPC` at address `2` loads `3`. -/
theorem step_LDAPC_witness :
    ∃ vm', step { ram := [.num 0, .num 0, .num 4003], pc := .num 2 } = .ok (vm', false) ∧
      vm'.accumulator = .num (2 + 1) ∧ vm'.pc = .num (2 + 1) ∧
      vm'.ram = [.num 0, .num 0, .num 4003] ∧ vm'.stack = [] ∧ vm'.input_stack = [] ∧
      vm'.console = [] :=
  step_LDAPC { ram := [.num 0, .num 0, .num 4003], pc := .num 2 } 2 rfl (by decide)

/-- C20: in every machine state whose word at `pc` decodes to opcode `0` with an
operand other than `0` and `1`, or to opcode `4` or `9` with an operand other than
`1`, `2` and `3`, `step` succeeds without signalling halt and changes nothing but
the program counter, which becomes `pc + 1`. -/
theorem step_undefined_subopcode (vm : VirtualMachine)
    (h : ((from_numeric (getElem vm.ram vm.pc)).opcode = .num 0 ∧
          (from_numeric (getElem vm.ram vm.pc)).operand ≠ .num 0 ∧
          (from_numeric (getElem vm.ram vm.pc)).operand ≠ .num 1) ∨
         (((from_numeric (getElem vm.ram vm.pc)).opcode = .num 4 ∨
           (from_numeric (getElem vm.ram vm.pc)).opcode = .num 9) ∧
          (from_numeric (getElem vm.ram vm.pc)).operand ≠ .num 1 ∧
          (from_numeric (getElem vm.ram vm.pc)).operand ≠ .num 2 ∧
          (from_numeric (getElem vm.ram vm.pc)).operand ≠ .num 3)) :
    ∃ (n : Int) (vm' : VirtualMachine), vm.pc = .num n ∧ step vm = .ok (vm', false) ∧
      vm'.pc = .num (n + 1) ∧ vm'.accumulator = vm.accumulator ∧ vm'.ram = vm.ram ∧
      vm'.stack = vm.stack ∧ vm'.input_stack = vm.input_stack ∧
      vm'.console = vm.console := by
  have hnum : ∃ k, (from_numeric (getElem vm.ram vm.pc)).opcode = .num k := by
    rcases h with h | ⟨h | h, -⟩
    · exact ⟨_, h.1⟩
    · exact ⟨_, h⟩
    · exact ⟨_, h⟩
  obtain ⟨k, hk⟩ := hnum
  obtain ⟨w, hw⟩ := from_numeric_opcode_num _ _ hk
  obtain ⟨n, hn, -⟩ := getElem_num _ _ _ hw
  obtain ⟨ram, stack, inp, acc, pc, console⟩ := vm
  simp only at hn h
  subst hn
  refine ⟨n, ⟨ram, stack, inp, acc, .num (n + 1), console⟩, rfl, ?_, rfl, rfl, rfl, rfl, rfl, rfl⟩
  unfold step
  rcases h with ⟨h0, h1, h2⟩ | ⟨h0 | h0, h1, h2, h3⟩
  · simp [h0, h1, h2, Value.add]
  · simp [h0, h1, h2, h3, Value.add]
  · simp [h0, h1, h2, h3, Value.add]

/-- The word `9007` at address `1` only advances the program counter. -/
theorem step_undefined_subopcode_witness :
    ∃ (n : Int) (vm' : VirtualMachine), (.num 1 : Value) = .num n ∧
      step { ram := [.num 0, .num 9007], pc := .num 1, accumulator := .num 5 } =
        .ok (vm', false) ∧
      vm'.pc = .num (n + 1) ∧ vm'.accumulator = .num 5 ∧ vm'.ram = [.num 0, .num 9007] ∧
      vm'.stack = [] ∧ vm'.input_stack = [] ∧ vm'.console = [] :=
  step_undefined_subopcode { ram := [.num 0, .num 9007], pc := .num 1, accumulator := .num 5 }
    (by decide)

/-! ## The frame of a step -/

theorem getD_setNat (ram : List Value) (a j : Nat) (v : Value) :
    (setNat ram a v)[j]?.getD .undefined = if j = a then v else ram[j]?.getD .undefined := by
  unfold setNat
  split
  · rename_i hlt
    rw [List.getElem?_set]
    by_cases hj : j = a
    · subst hj
      simp [hlt]
    · have : ¬ a = j := fun h => hj h.symm
      simp [hj, this]
  · rename_i hge
    by_cases hj : j = a
    · subst hj
      rw [if_pos rfl, List.getElem?_append_right (by simp; omega)]
      have : j - (ram ++ List.replicate (j - ram.length) Value.undefined).length = 0 := by
        simp; omega
      rw [this]
      rfl
    · rw [if_neg hj]
      rcases Nat.lt_or_ge j ram.length with h1 | h1
      · rw [List.append_assoc, List.getElem?_append_left h1]
      · rw [List.getElem?_eq_none (l := ram) h1]
        rcases Nat.lt_or_ge j a with h2 | h2
        · rw [List.append_assoc, List.getElem?_append_right h1,
            List.getElem?_append_left (by simp; omega), List.getElem?_replicate]
          split <;> rfl
        · rw [List.getElem?_eq_none (by simp; omega)]

theorem getElem_setElem (ram : List Value) (a : Int) (ha : 0 ≤ a) (v : Value) :
    getElem (setElem ram (.num a) v) (.num a) = v ∧
    ∀ i : Value, i ≠ .num a → getElem (setElem ram (.num a) v) i = getElem ram i := by
  simp only [setElem, ha, ↓reduceIte]
  constructor
  · simp only [getElem, ha, ↓reduceIte, List.getD_eq_getElem?_getD, getD_setNat]
  · intro i hi
    cases i with
    | num j =>
      simp only [getElem]
      split
      · rename_i hj
        rw [List.getD_eq_getElem?_getD, List.getD_eq_getElem?_getD, getD_setNat, if_neg]
        intro heq
        apply hi
        congr 1
        omega
      · rfl
    | nan => rfl
    | undefined => rfl

theorem from_numeric_sta (v : Value) (operand : Value)
    (h : from_numeric v = { opcode := .num 3, operand := operand }) :
    ∃ a : Int, 0 ≤ a ∧ a ≤ 999 ∧ operand = .num a := by
  cases v with
  | num w =>
    rw [from_numeric_num] at h
    simp only [Decoded.mk.injEq, Value.num.injEq] at h
    obtain ⟨h1, h2⟩ := h
    rcases lt_or_le w 0 with hw | hw
    · have := (tdiv_tmod_neg w hw).1
      omega
    · have := (tdiv_tmod_nonneg w hw).2
      exact ⟨Int.tmod w 1000, by omega, by omega, h2.symm⟩
  | nan => simp [from_numeric] at h
  | undefined => simp [from_numeric] at h

theorem ite_eq_cases {α : Type} (c : Prop) [Decidable c] (a b r : α)
    (h : (if c then a else b) = r) : (c ∧ a = r) ∨ (¬c ∧ b = r) := by
  by_cases hc : c
  · rw [if_pos hc] at h
    exact Or.inl ⟨hc, h⟩
  · rw [if_neg hc] at h
    exact Or.inr ⟨hc, h⟩

theorem step_frame_aux (vm vm' : VirtualMachine) (done : Bool) (opcode operand : Value)
    (hd : from_numeric (getElem vm.ram vm.pc) = { opcode := opcode, operand := operand })
    (h : step vm = .ok (vm', done)) :
    (opcode ≠ .num 3 → vm'.ram = vm.ram) ∧
    (opcode = .num 3 → vm'.ram = setElem vm.ram operand vm.accumulator) ∧
    (opcode = .num 4 ∧ operand = .num 2 → vm'.stack = vm.stack ++ [vm.accumulator]) ∧
    (opcode = .num 4 ∧ operand = .num 1 → vm'.stack = vm.stack.dropLast) ∧
    (¬(opcode = .num 4 ∧ operand = .num 2) → ¬(opcode = .num 4 ∧ operand = .num 1) →
      vm'.stack = vm.stack) ∧
    (opcode = .num 9 ∧ operand = .num 1 → vm'.input_stack = vm.input_stack.dropLast) ∧
    (¬(opcode = .num 9 ∧ operand = .num 1) → vm'.input_stack = vm.input_stack) := by
  unfold step at h
  simp only [hd] at h
  clear hd
  rcases ite_eq_cases (opcode = .num 1) _ _ _ h with ⟨c, h⟩ | ⟨c1, h⟩
  · cases h; subst c; simp
  rcases ite_eq_cases (opcode = .num 2) _ _ _ h with ⟨c, h⟩ | ⟨c2, h⟩
  · cases h; subst c; simp
  rcases ite_eq_cases (opcode = .num 3) _ _ _ h with ⟨c, h⟩ | ⟨c3, h⟩
  · cases h; subst c; simp
  rcases ite_eq_cases (opcode = .num 5) _ _ _ h with ⟨c, h⟩ | ⟨c5, h⟩
  · cases h; subst c; simp
  rcases ite_eq_cases (opcode = .num 6) _ _ _ h with ⟨c, h⟩ | ⟨c6, h⟩
  · cases h; subst c; simp
  rcases ite_eq_cases (opcode = .num 7) _ _ _ h with ⟨c, h⟩ | ⟨c7, h⟩
  · cases h; subst c; simp; split <;> simp
  rcases ite_eq_cases (opcode = .num 8) _ _ _ h with ⟨c, h⟩ | ⟨c8, h⟩
  · cases h; subst c; simp; split <;> simp
  rcases ite_eq_cases (opcode = .num 0) _ _ _ h with ⟨c, h⟩ | ⟨c0, h⟩
  · subst c
    rcases ite_eq_cases (operand = .num 0) _ _ _ h with ⟨o, h⟩ | ⟨o0, h⟩
    · cases h; simp
    rcases ite_eq_cases (operand = .num 1) _ _ _ h with ⟨o, h⟩ | ⟨o1, h⟩
    · cases h; simp
    · cases h; simp
  rcases ite_eq_cases (opcode = .num 9) _ _ _ h with ⟨c, h⟩ | ⟨c9, h⟩
  · subst c
    rcases ite_eq_cases (operand = .num 1) _ _ _ h with ⟨o, h⟩ | ⟨o1, h⟩
    · cases h; subst o; simp
    rcases ite_eq_cases (operand = .num 2) _ _ _ h with ⟨o, h⟩ | ⟨o2, h⟩
    · cases h; subst o; simp
    rcases ite_eq_cases (operand = .num 3) _ _ _ h with ⟨o, h⟩ | ⟨o3, h⟩
    · cases h; subst o; simp
    · cases h; simp [o1]
  rcases ite_eq_cases (opcode = .num 4) _ _ _ h with ⟨c, h⟩ | ⟨c4, h⟩
  · subst c
    rcases ite_eq_cases (operand = .num 1) _ _ _ h with ⟨o, h⟩ | ⟨o1, h⟩
    · cases h; subst o; simp
    rcases ite_eq_cases (operand = .num 2) _ _ _ h with ⟨o, h⟩ | ⟨o2, h⟩
    · cases h; subst o; simp
    rcases ite_eq_cases (operand = .num 3) _ _ _ h with ⟨o, h⟩ | ⟨o3, h⟩
    · cases h; subst o; simp
    · cases h; simp [o1, o2]
  · cases h

/-- C16: the frame of a successful step. The memory is unchanged unless the decoded
opcode is `3` (`STA`), and then the operand is an address `a` in `0..999`, the cell
at `a` reads the accumulator and every other cell reads as before. The stack is
`stack ++ [accumulator]` after `4002` (`PSH`), loses its last element after `4001`
(`POP`) and is unchanged after every other word; the input queue loses its last
element after `9001` (`INP`) and is unchanged after every other word. -/
theorem step_frame (vm vm' : VirtualMachine) (done : Bool) (h : step vm = .ok (vm', done)) :
    ((from_numeric (getElem vm.ram vm.pc)).opcode ≠ .num 3 → vm'.ram = vm.ram) ∧
    ((from_numeric (getElem vm.ram vm.pc)).opcode = .num 3 →
      ∃ a : Int, 0 ≤ a ∧ a ≤ 999 ∧ (from_numeric (getElem vm.ram vm.pc)).operand = .num a ∧
        getElem vm'.ram (.num a) = vm.accumulator ∧
        ∀ i : Value, i ≠ .num a → getElem vm'.ram i = getElem vm.ram i) ∧
    (getElem vm.ram vm.pc = .num 4002 → vm'.stack = vm.stack ++ [vm.accumulator]) ∧
    (getElem vm.ram vm.pc = .num 4001 → vm'.stack = vm.stack.dropLast) ∧
    (getElem vm.ram vm.pc ≠ .num 4002 → getElem vm.ram vm.pc ≠ .num 4001 →
      vm'.stack = vm.stack) ∧
    (getElem vm.ram vm.pc = .num 9001 → vm'.input_stack = vm.input_stack.dropLast) ∧
    (getElem vm.ram vm.pc ≠ .num 9001 → vm'.input_stack = vm.input_stack) := by
  have e1 := from_numeric_eq_iff (getElem vm.ram vm.pc) 4 2 (by decide) (by decide)
  have e2 := from_numeric_eq_iff (getElem vm.ram vm.pc) 4 1 (by decide) (by decide)
  have e3 := from_numeric_eq_iff (getElem vm.ram vm.pc) 9 1 (by decide) (by decide)
  norm_num at e1 e2 e3
  cases hd : from_numeric (getElem vm.ram vm.pc) with
  | mk opcode operand =>
    obtain ⟨f1, f2, f3, f4, f5, f6, f7⟩ := step_frame_aux vm vm' done opcode operand hd h
    simp only [hd, Decoded.mk.injEq] at e1 e2 e3
    refine ⟨f1, ?_, fun x => f3 (e1.2 x), fun x => f4 (e2.2 x),
      fun x y => f5 (fun z => x (e1.1 z)) (fun z => y (e2.1 z)),
      fun x => f6 (e3.2 x), fun x => f7 (fun z => x (e3.1 z))⟩
    intro hop
    simp only at hop
    subst hop
    obtain ⟨a, ha0, ha9, rfl⟩ := from_numeric_sta _ _ hd
    have hset := getElem_setElem vm.ram a ha0 vm.accumulator
    rw [f2 rfl]
    exact ⟨a, ha0, ha9, rfl, hset.1, hset.2⟩

/-- An `STA 2` on a memory of one word: the cell at `2` reads the accumulator, the others as before. -/
theorem step_frame_witness :
    ∃ a : Int, 0 ≤ a ∧ a ≤ 999 ∧
      (from_numeric (getElem [Value.num 3002] (.num 0))).operand = .num a ∧
      getElem [Value.num 3002, .undefined, .num 7] (.num a) = .num 7 ∧
      ∀ i : Value, i ≠ .num a →
        getElem [Value.num 3002, .undefined, .num 7] i = getElem [Value.num 3002] i :=
  (step_frame { ram := [.num 3002], accumulator := .num 7 }
    { ram := [.num 3002, .undefined, .num 7], accumulator := .num 7, pc := .num 1 } false
    (by decide)).2.1 (by decide)

/-! ## A mnemonic followed by a literal -/

theorem collapse_word (prev : Char) (a b : Str) (ha : ' ' ∉ a) (hb : ' ' ∉ b)
    (hp : prev ≠ ' ' ∨ a ≠ []) : collapse prev (a ++ ' ' :: b) = a ++ ' ' :: b := by
  induction a generalizing prev with
  | nil =>
    have hprev : prev ≠ ' ' := by
      rcases hp with h | h
      · exact h
      · exact absurd rfl h
    simp only [List.nil_append, collapse]
    rw [if_neg (fun h => hprev h.1), collapse_of_not_mem _ _ hb]
  | cons c a ih =>
    simp only [List.mem_cons, not_or] at ha
    rw [List.cons_append, collapse, if_neg (fun h => ha.1 h.2.symm),
      ih c ha.2 (Or.inl (Ne.symm ha.1))]

theorem split_word (sep : Char) (a b : Str) (ha : sep ∉ a) :
    split sep (a ++ sep :: b) = a :: split sep b := by
  induction a with
  | nil => simp [split]
  | cons c a ih =>
    simp only [List.mem_cons, not_or] at ha
    simp only [List.cons_append]
    rw [split, if_neg (Ne.symm ha.1), ih ha.2]

theorem map_tab_of_not_mem (s : Str) (h : '\t' ∉ s) :
    s.map (fun c => if c = '\t' then ' ' else c) = s := by
  conv_rhs => rw [← List.map_id s]
  apply List.map_congr_left
  intro c hc
  rw [if_neg (fun heq => h (by rw [← heq]; exact hc))]
  rfl

theorem lexemes_word_literal (name : Str) (k : Int) (hne : name ≠ [])
    (hsp : ' ' ∉ name) (htab : '\t' ∉ name) (hnl : '\n' ∉ name) :
    lexemes (name ++ ' ' :: decimal k) = [[name, decimal k, ['\n']]] := by
  have dsp : ' ' ∉ decimal k := fun h => (decimal_no_separator k _ h).1 rfl
  have dtab : '\t' ∉ decimal k := fun h => (decimal_no_separator k _ h).2.1 rfl
  have dnl : '\n' ∉ decimal k := fun h => (decimal_no_separator k _ h).2.2 rfl
  have hline : '\n' ∉ name ++ ' ' :: decimal k := by
    simp only [List.mem_append, List.mem_cons, not_or]
    exact ⟨hnl, by decide, dnl⟩
  have hmap : (name ++ ' ' :: decimal k).map (fun c => if c = '\t' then ' ' else c) =
      name ++ ' ' :: decimal k := by
    apply map_tab_of_not_mem
    simp only [List.mem_append, List.mem_cons, not_or]
    exact ⟨htab, by decide, dtab⟩
  have hpre : preprocess (name ++ ' ' :: decimal k) = name ++ ' ' :: decimal k := by
    rw [preprocess, hmap]
    cases name with
    | nil => exact absurd rfl hne
    | cons c rest =>
      simp only [List.mem_cons, not_or] at hsp
      simp only [List.cons_append]
      rw [collapse_word c rest (decimal k) hsp.2 dsp (Or.inl (Ne.symm hsp.1))]
  rw [lexemes, split_of_not_mem _ _ hline]
  simp only [List.map_cons, List.map_nil, hpre]
  rw [split_word _ _ _ hsp, split_of_not_mem _ _ dsp]
  rfl

theorem lookup_mem_keys {β : Type} (table : List (Str × β)) (key : Str) (v : β)
    (h : table.lookup key = some v) : key ∈ table.map Prod.fst := by
  induction table with
  | nil => simp at h
  | cons e rest ih =>
    obtain ⟨k', v'⟩ := e
    rw [List.lookup_cons] at h
    split at h
    · rename_i heq
      have : key = k' := by simpa using heq
      rw [this, List.map_cons]
      exact List.mem_cons_self _ _
    · rw [List.map_cons]
      exact List.mem_cons_of_mem _ (ih h)

theorem keyword_shape : ∀ s ∈ KEYWORDS, s ≠ [] ∧ ' ' ∉ s ∧ '\t' ∉ s ∧ '\n' ∉ s ∧ s ≠ ['\n'] := by
  decide

theorem classify_keyword (name : Str) (h : name ∈ KEYWORDS) :
    classify name = .ok (.OPERATION name) := by
  simp [classify, h]

/-- The image of a mnemonic followed by an integer literal `k` whose number is the
integer `w`. -/
theorem assemble_word_literal (name : Str) (opcode : Int) (k w : Int)
    (hop : OPCODES_TO_NUMERIC.lookup name = some opcode) (hw : Number (decimal k) = .int w) :
    VirtualMachine.new (name ++ ' ' :: decimal k) =
      .ok { ram := [if opcode = -1 then .num w else .num (opcode * 1000 + w)] } := by
  have hkw : name ∈ KEYWORDS := lookup_mem_keys _ _ _ hop
  obtain ⟨hne, hsp, htab, hnl, -⟩ := keyword_shape name hkw
  have hc2 : classify ['\n'] = .ok .NEW_INSTRUCTION := by decide
  have hlex : lexical_analysis (name ++ ' ' :: decimal k) =
      .ok [.OPERATION name, .LITERAL w, .NEW_INSTRUCTION] := by
    rw [lexical_analysis]
    simp only [lexemes_word_literal name k hne hsp htab hnl]
    simp only [firstLongLine, List.flatten, List.append_nil, tokenize, classify_keyword name hkw,
      hc2, classify_decimal, hw]
    rfl
  have hsyn : syntax_analysis [.OPERATION name, .LITERAL w, .NEW_INSTRUCTION] =
      .ok ([{ opcode := some opcode, operand := .num w }], []) := by
    simp [syntax_analysis, collate, dispatch, hop, Instruction.nonEmpty, collect_labels]
  have hasm : assemble [] [{ opcode := some opcode, operand := .num w }] =
      .ok [if opcode = -1 then .num w else .num (opcode * 1000 + w)] := by
    by_cases h1 : opcode = -1 <;>
      simp [assemble, assemble_one, hasOwnProperty, Operand.isNaN, Operand.key,
        Instruction.to_numeric, h1]
  rw [VirtualMachine.new, hlex]
  simp only [hsyn, hasm]

/-- C17: each mnemonic of a disambiguated class written alone on a line assembles to its class
times 1000 plus its sub-opcode (HLT 0, RET 1, POP 4001, PSH 4002, LDAPC 4003, INP 9001, OUT 9002,
OUTC 9003), DAT with its operand omitted assembles to 0, and for every such mnemonic and every
integer literal `k` written after it the literal replaces the sub-opcode: the word is the class
times 1000 plus `k` for `k` from `-2 ^ 53` to `2 ^ 53`, and the class times 1000 plus the number
`w` of the literal whenever that number is an integer. -/
theorem assemble_disambiguated :
    (VirtualMachine.new "HLT".toList = .ok { ram := [.num 0] } ∧
     VirtualMachine.new "RET".toList = .ok { ram := [.num 1] } ∧
     VirtualMachine.new "POP".toList = .ok { ram := [.num 4001] } ∧
     VirtualMachine.new "PSH".toList = .ok { ram := [.num 4002] } ∧
     VirtualMachine.new "LDAPC".toList = .ok { ram := [.num 4003] } ∧
     VirtualMachine.new "INP".toList = .ok { ram := [.num 9001] } ∧
     VirtualMachine.new "OUT".toList = .ok { ram := [.num 9002] } ∧
     VirtualMachine.new "OUTC".toList = .ok { ram := [.num 9003] } ∧
     VirtualMachine.new "DAT".toList = .ok { ram := [.num 0] }) ∧
    (∀ (name : Str) (extra : Int), (name, extra) ∈ OPCODES_TO_EXTRA_NUMERIC → ∀ k : Int,
      ∃ opcode : Int, OPCODES_TO_NUMERIC.lookup name = some opcode ∧
        VirtualMachine.new name = .ok { ram := [.num (opcode * 1000 + extra)] } ∧
        (-2 ^ 53 ≤ k ∧ k ≤ 2 ^ 53 →
          VirtualMachine.new (name ++ ' ' :: decimal k) =
            .ok { ram := [.num (opcode * 1000 + k)] }) ∧
        (∀ w : Int, Number (decimal k) = .int w →
          VirtualMachine.new (name ++ ' ' :: decimal k) =
            .ok { ram := [.num (opcode * 1000 + w)] })) := by
  refine ⟨by decide, ?_⟩
  intro name extra hmem k
  have hall : ∀ p ∈ OPCODES_TO_EXTRA_NUMERIC, ∃ opcode : Int,
      OPCODES_TO_NUMERIC.lookup p.1 = some opcode ∧ opcode ≠ -1 ∧
      VirtualMachine.new p.1 = .ok { ram := [.num (opcode * 1000 + p.2)] } := by
    decide
  obtain ⟨opcode, hop, hne, hnew⟩ := hall (name, extra) hmem
  have hgeneral : ∀ w : Int, Number (decimal k) = .int w →
      VirtualMachine.new (name ++ ' ' :: decimal k) =
        .ok { ram := [.num (opcode * 1000 + w)] } := by
    intro w hw
    rw [assemble_word_literal name opcode k w hop hw, if_neg hne]
  exact ⟨opcode, hop, hnew, fun hk => hgeneral k (Number_decimal k hk), hgeneral⟩

/-- An instance of `assemble_disambiguated`: `POP` alone and `POP 7`. -/
theorem assemble_disambiguated_witness :
    ∃ opcode : Int, OPCODES_TO_NUMERIC.lookup "POP".toList = some opcode ∧
      VirtualMachine.new "POP".toList = .ok { ram := [.num (opcode * 1000 + 1)] } ∧
      VirtualMachine.new ("POP".toList ++ ' ' :: decimal 7) =
        .ok { ram := [.num (opcode * 1000 + 7)] } :=
  match assemble_disambiguated.2 "POP".toList 1 (by decide) 7 with
  | ⟨opcode, h1, h2, h3, _⟩ => ⟨opcode, h1, h2, h3 (by norm_num)⟩

/-- C14 (failing input): a trailing space is not normalised away. `POP` assembles to 4001 but
`POP ` assembles to 4000, because the empty lexeme after the space is lexed as the literal 0, which
overwrites the sub-opcode; `LDA 5` followed by a tab assembles to 5000 instead of 5005; and a space
before the three lexemes of `x DAT 5` makes a fourth, empty lexeme, so the line is rejected. -/
theorem trailing_space_overwrites :
    VirtualMachine.new "POP".toList = .ok { ram := [.num 4001] } ∧
    VirtualMachine.new "POP ".toList = .ok { ram := [.num 4000] } ∧
    lexical_analysis "POP ".toList =
      .ok [.OPERATION "POP".toList, .LITERAL 0, .NEW_INSTRUCTION] ∧
    VirtualMachine.new "LDA 5".toList = .ok { ram := [.num 5005] } ∧
    VirtualMachine.new "LDA 5\t".toList = .ok { ram := [.num 5000] } ∧
    VirtualMachine.new "x DAT 5".toList = .ok { ram := [.num 5] } ∧
    VirtualMachine.new " x DAT 5".toList =
      .error (.tooManyElements 0 [[], "x".toList, "DAT".toList, "5".toList, ['\n']]) := by
  decide

/-! ## The lexemes and tokens of each line -/

theorem not_mem_of_mem_split (sep : Char) (s : Str) (w : Str) (hw : w ∈ split sep s) :
    sep ∉ w := by
  induction s generalizing w with
  | nil =>
    simp only [split, List.mem_singleton] at hw
    subst hw
    simp
  | cons c cs ih =>
    rw [split] at hw
    split at hw
    · rcases List.mem_cons.1 hw with rfl | hw
      · simp
      · exact ih w hw
    · rename_i hc
      cases hsp : split sep cs with
      | nil =>
        rw [hsp] at hw
        simp only [List.mem_singleton] at hw
        subst hw
        simpa using fun h => hc h.symm
      | cons first rest =>
        rw [hsp] at hw ih
        simp only at hw
        rcases List.mem_cons.1 hw with rfl | hw
        · have := ih first (List.mem_cons_self _ _)
          simp only [List.mem_cons, not_or]
          exact ⟨fun h => hc h.symm, this⟩
        · exact ih w (List.mem_cons_of_mem _ hw)

theorem mem_of_mem_split (sep : Char) (s : Str) (w : Str) (hw : w ∈ split sep s) (c : Char)
    (hc : c ∈ w) : c ∈ s := by
  induction s generalizing w with
  | nil =>
    simp only [split, List.mem_singleton] at hw
    subst hw
    cases hc
  | cons d cs ih =>
    rw [split] at hw
    split at hw
    · rcases List.mem_cons.1 hw with rfl | hw
      · cases hc
      · exact List.mem_cons_of_mem _ (ih w hw hc)
    · cases hsp : split sep cs with
      | nil =>
        rw [hsp] at hw
        simp only [List.mem_singleton] at hw
        subst hw
        simp only [List.mem_singleton] at hc
        subst hc
        exact List.mem_cons_self _ _
      | cons first rest =>
        rw [hsp] at hw ih
        simp only at hw
        rcases List.mem_cons.1 hw with rfl | hw
        · rcases List.mem_cons.1 hc with rfl | hc
          · exact List.mem_cons_self _ _
          · exact List.mem_cons_of_mem _ (ih first (List.mem_cons_self _ _) hc)
        · exact List.mem_cons_of_mem _ (ih w (List.mem_cons_of_mem _ hw) hc)

theorem mem_of_mem_collapse (prev : Char) (s : Str) (c : Char) (hc : c ∈ collapse prev s) :
    c ∈ s := by
  induction s generalizing prev with
  | nil => cases hc
  | cons d cs ih =>
    rw [collapse] at hc
    split at hc
    · exact List.mem_cons_of_mem _ (ih d hc)
    · rcases List.mem_cons.1 hc with rfl | hc
      · exact List.mem_cons_self _ _
      · exact List.mem_cons_of_mem _ (ih d hc)

theorem mem_of_mem_preprocess (text : Str) (c : Char) (hc : c ∈ preprocess text) :
    c ∈ text ∨ c = ' ' := by
  have hmap : c ∈ text.map (fun c => if c = '\t' then ' ' else c) := by
    unfold preprocess at hc
    cases hm : text.map (fun c => if c = '\t' then ' ' else c) with
    | nil => rw [hm] at hc; cases hc
    | cons d ds =>
      rw [hm] at hc
      simp only at hc
      rcases List.mem_cons.1 hc with rfl | hc
      · exact List.mem_cons_self _ _
      · exact List.mem_cons_of_mem _ (mem_of_mem_collapse _ _ _ hc)
  obtain ⟨d, hd, rfl⟩ := List.mem_map.1 hmap
  by_cases ht : d = '\t'
  · right
    simp [ht]
  · left
    simpa [ht] using hd

/-- No lexeme of a line without a line break is the terminator that
`lexical_analysis` appends. -/
theorem lexeme_ne_terminator (line lexeme : Str) (hline : '\n' ∉ line)
    (h : lexeme ∈ split ' ' (preprocess line)) : lexeme ≠ ['\n'] := by
  rintro rfl
  have h1 := mem_of_mem_split _ _ _ h '\n' (List.mem_singleton_self _)
  rcases mem_of_mem_preprocess _ _ h1 with h2 | h2
  · exact hline h2
  · exact absurd h2 (by decide)

theorem tokenize_append (a b : List Str) (tokens : List Token)
    (h : tokenize (a ++ b) = .ok tokens) :
    ∃ ta tb, tokenize a = .ok ta ∧ tokenize b = .ok tb ∧ tokens = ta ++ tb := by
  induction a generalizing tokens with
  | nil => exact ⟨[], tokens, rfl, h, rfl⟩
  | cons l rest ih =>
    rw [List.cons_append, tokenize] at h
    split at h
    · cases h
    · rename_i token htoken
      split at h
      · cases h
      · rename_i ts hts
        cases h
        obtain ⟨ta, tb, h1, h2, rfl⟩ := ih ts hts
        refine ⟨token :: ta, tb, ?_, h2, rfl⟩
        rw [tokenize, htoken, h1]

theorem tokenize_flatten (ls : List (List Str)) (tokens : List Token)
    (h : tokenize ls.flatten = .ok tokens) :
    ∃ perLine : List (List Token),
      List.Forall₂ (fun l p => tokenize l = .ok p) ls perLine ∧ tokens = perLine.flatten := by
  induction ls generalizing tokens with
  | nil =>
    simp only [List.flatten_nil, tokenize, Except.ok.injEq] at h
    subst h
    exact ⟨[], List.Forall₂.nil, rfl⟩
  | cons l rest ih =>
    rw [List.flatten_cons] at h
    obtain ⟨ta, tb, h1, h2, rfl⟩ := tokenize_append _ _ _ h
    obtain ⟨per, hper, rfl⟩ := ih tb h2
    exact ⟨ta :: per, List.Forall₂.cons h1 hper, rfl⟩

theorem tokenize_classify (ls : List Str) (tokens : List Token) (h : tokenize ls = .ok tokens) :
    List.Forall₂ (fun l t => l ∈ ls ∧ classify l = .ok t) ls tokens := by
  induction ls generalizing tokens with
  | nil =>
    simp only [tokenize, Except.ok.injEq] at h
    subst h
    exact List.Forall₂.nil
  | cons l rest ih =>
    rw [tokenize] at h
    split at h
    · cases h
    · rename_i token htoken
      split at h
      · cases h
      · rename_i ts hts
        cases h
        refine List.Forall₂.cons ⟨List.mem_cons_self _ _, htoken⟩ ?_
        exact (ih ts hts).imp (fun l t hlt => ⟨List.mem_cons_of_mem _ hlt.1, hlt.2⟩)

/-- What `classify` gives for a lexeme that is not the terminator. -/
theorem classify_spec (lexeme : Str) (token : Token) (hne : lexeme ≠ ['\n'])
    (h : classify lexeme = .ok token) :
    (lexeme ∈ KEYWORDS → token = .OPERATION lexeme) ∧
    (lexeme ∉ KEYWORDS → isNaN lexeme = true → token = .LABEL lexeme) ∧
    (lexeme ∉ KEYWORDS → isNaN lexeme = false → token = .LITERAL (Number lexeme)) := by
  unfold classify at h
  split at h
  · rename_i hkw
    have hmem : lexeme ∈ KEYWORDS := by simpa using hkw
    cases h
    exact ⟨fun _ => rfl, fun hn => absurd hmem hn, fun hn => absurd hmem hn⟩
  · rename_i hkw
    have hmem : lexeme ∉ KEYWORDS := by simpa using hkw
    split at h
    · rename_i hnan
      cases h
      exact ⟨fun hn => absurd hn hmem, fun _ _ => rfl,
        fun _ hfalse => by rw [hnan] at hfalse; cases hfalse⟩
    · rename_i hnan
      cases h
      exact ⟨fun hn => absurd hn hmem, fun _ htrue => absurd htrue hnan, fun _ _ => rfl⟩

/-- The token loop returns on every list of lexemes. -/
theorem tokenize_ok (ls : List Str) : ∃ tokens, tokenize ls = .ok tokens := by
  cases h : tokenize ls with
  | error e => exact absurd h (tokenize_error ls e)
  | ok tokens => exact ⟨tokens, rfl⟩

/-- A source no line of which has more than three lexemes is lexed. -/
theorem lexical_analysis_ok (program_string : Str)
    (hshort : ∀ line ∈ split '\n' program_string, (split ' ' (preprocess line)).length ≤ 3) :
    ∃ tokens, lexical_analysis program_string = .ok tokens := by
  have hnone : firstLongLine 0 (lexemes program_string) = none := by
    rw [firstLongLine_eq_none]
    intro elem helem
    simp only [lexemes, List.mem_map] at helem
    obtain ⟨line, hline, rfl⟩ := helem
    have := hshort line hline
    simp only [List.length_append, List.length_singleton]
    omega
  obtain ⟨tokens, htokens⟩ := tokenize_ok (lexemes program_string).flatten
  refine ⟨tokens, ?_⟩
  unfold lexical_analysis
  simp only [hnone, htokens]

theorem tokenize_lines (ls : List Str) (hnl : ∀ l ∈ ls, '\n' ∉ l) (tokens : List Token)
    (h : tokenize (ls.map (fun elem => split ' ' (preprocess elem) ++ [['\n']])).flatten =
      .ok tokens) :
    ∃ perLine : List (List Token),
      tokens = perLine.flatten ∧
      List.Forall₂ (fun line toks =>
          ∃ body : List Token, toks = body ++ [.NEW_INSTRUCTION] ∧
            List.Forall₂ (fun lexeme token =>
              (lexeme ∈ KEYWORDS → token = .OPERATION lexeme) ∧
              (lexeme ∉ KEYWORDS → isNaN lexeme = true → token = .LABEL lexeme) ∧
              (lexeme ∉ KEYWORDS → isNaN lexeme = false → token = .LITERAL (Number lexeme)))
              (split ' ' (preprocess line)) body ∧
            (line = [] → toks = [.LITERAL 0, .NEW_INSTRUCTION]))
        ls perLine := by
  induction ls generalizing tokens with
  | nil =>
    simp only [List.map_nil, List.flatten_nil, tokenize, Except.ok.injEq] at h
    subst h
    exact ⟨[], rfl, List.Forall₂.nil⟩
  | cons line rest ih =>
    rw [List.map_cons, List.flatten_cons] at h
    obtain ⟨tl, tr, h1, h2, rfl⟩ := tokenize_append _ _ _ h
    obtain ⟨per, rfl, hper⟩ := ih (fun l hl => hnl l (List.mem_cons_of_mem _ hl)) tr h2
    obtain ⟨body, tb, hb, ht, rfl⟩ := tokenize_append _ _ _ h1
    have htb : tb = [.NEW_INSTRUCTION] := by
      have : tokenize [['\n']] = .ok [.NEW_INSTRUCTION] := by decide
      rw [this] at ht
      cases ht
      rfl
    subst htb
    refine ⟨(body ++ [Token.NEW_INSTRUCTION]) :: per, List.flatten_cons.symm,
      List.Forall₂.cons ⟨body, rfl, ?_, ?_⟩ hper⟩
    · refine (tokenize_classify _ _ hb).imp (fun lexeme token hlt => ?_)
      exact classify_spec lexeme token
        (lexeme_ne_terminator line lexeme (hnl line (List.mem_cons_self _ _)) hlt.1) hlt.2
    · intro hline
      subst hline
      have : tokenize (split ' ' (preprocess [])) = .ok [.LITERAL 0] := by decide
      rw [this] at hb
      cases hb
      rfl

/-- C19 (amended): on every source no line of which has more than three lexemes,
`lexical_analysis` returns, and its tokens are those of the source lines in order; the tokens of
a line are one token for each lexeme of the line, in order, followed by the new-instruction token
of the appended terminator; a lexeme equal to one of the 16 mnemonics gives an operation token,
any other lexeme that is not a number gives a label token carrying its text, and any other lexeme
gives a literal token carrying the number `Number(lexeme)`, in whatever notation it is written. A
blank line has one lexeme, the empty string, whose number is 0: it gives a literal token 0
followed by the new-instruction token. -/
theorem lexical_analysis_classifies (program_string : Str)
    (hshort : ∀ line ∈ split '\n' program_string, (split ' ' (preprocess line)).length ≤ 3) :
    KEYWORDS.length = 16 ∧
    ∃ (tokens : List Token) (perLine : List (List Token)),
      lexical_analysis program_string = .ok tokens ∧
      tokens = perLine.flatten ∧
      List.Forall₂ (fun line toks =>
          ∃ body : List Token, toks = body ++ [.NEW_INSTRUCTION] ∧
            List.Forall₂ (fun lexeme token =>
              (lexeme ∈ KEYWORDS → token = .OPERATION lexeme) ∧
              (lexeme ∉ KEYWORDS → isNaN lexeme = true → token = .LABEL lexeme) ∧
              (lexeme ∉ KEYWORDS → isNaN lexeme = false → token = .LITERAL (Number lexeme)))
              (split ' ' (preprocess line)) body ∧
            (line = [] → toks = [.LITERAL 0, .NEW_INSTRUCTION]))
        (split '\n' program_string) perLine := by
  refine ⟨by decide, ?_⟩
  obtain ⟨tokens, h⟩ := lexical_analysis_ok program_string hshort
  refine ⟨tokens, ?_⟩
  have h' := h
  unfold lexical_analysis at h'
  simp only at h'
  split at h'
  · cases h'
  · obtain ⟨perLine, hflat, hall⟩ :=
      tokenize_lines _ (fun l hl => not_mem_of_mem_split _ _ _ hl) tokens h'
    exact ⟨perLine, h, hflat, hall⟩

/-- An instance of `lexical_analysis_classifies`: a labelled line with a hexadecimal literal, a
blank line, and a line with a mnemonic in lower case, a fraction and a literal with an exponent;
and the numbers of some lexemes. -/
theorem lexical_analysis_classifies_witness :
    lexical_analysis "loop LDA 0x10\n\nhlt 1.5 1e3".toList =
      .ok [.LABEL "loop".toList, .OPERATION "LDA".toList, .LITERAL 16, .NEW_INSTRUCTION,
        .LITERAL 0, .NEW_INSTRUCTION,
        .LABEL "hlt".toList, .LITERAL (.dyadic 3 1), .LITERAL 1000, .NEW_INSTRUCTION] ∧
    Number "0x10".toList = .int 16 ∧ Number "1.5".toList = .dyadic 3 1 ∧
    Number "1e3".toList = .int 1000 ∧ Number "Infinity".toList = .infinity false ∧
    Number "+5".toList = .int 5 ∧ Number "".toList = .int 0 ∧
    Number "0.1".toList = .dyadic 3602879701896397 55 ∧
    Number "9007199254740993".toList = .int 9007199254740992 ∧
    KEYWORDS.length = 16 ∧
    ∃ (tokens : List Token) (perLine : List (List Token)),
      lexical_analysis "loop LDA 0x10\n\nhlt 1.5 1e3".toList = .ok tokens ∧
      tokens = perLine.flatten ∧
      List.Forall₂ (fun line toks =>
          ∃ body : List Token, toks = body ++ [.NEW_INSTRUCTION] ∧
            List.Forall₂ (fun lexeme token =>
              (lexeme ∈ KEYWORDS → token = .OPERATION lexeme) ∧
              (lexeme ∉ KEYWORDS → isNaN lexeme = true → token = .LABEL lexeme) ∧
              (lexeme ∉ KEYWORDS → isNaN lexeme = false → token = .LITERAL (Number lexeme)))
              (split ' ' (preprocess line)) body ∧
            (line = [] → toks = [.LITERAL 0, .NEW_INSTRUCTION]))
        (split '\n' "loop LDA 0x10\n\nhlt 1.5 1e3".toList) perLine :=
  ⟨by decide, by decide, by decide, by decide, by decide, by decide, by decide, by decide,
    by decide, lexical_analysis_classifies _ (by decide)⟩

/-- C19 (counterexample): a blank line does not contribute the new-instruction token alone. The
source of two `HLT` lines with a blank line between them lexes to six tokens, the third of which
is the literal 0 of the blank line; the blank line alone lexes to that literal and the
new-instruction token. -/
theorem lexical_analysis_blank_line :
    lexical_analysis "HLT\n\nHLT".toList =
      .ok [.OPERATION "HLT".toList, .NEW_INSTRUCTION, .LITERAL 0, .NEW_INSTRUCTION,
        .OPERATION "HLT".toList, .NEW_INSTRUCTION] ∧
    lexical_analysis [] = .ok [.LITERAL 0, .NEW_INSTRUCTION] ∧
    lexical_analysis [] ≠ .ok [.NEW_INSTRUCTION] := by
  decide

/-! ## One instruction for each line that carries one -/

theorem keyword_lookup : ∀ s ∈ KEYWORDS, (OPCODES_TO_NUMERIC.lookup s).isSome = true := by
  decide

theorem tokenize_filterMap (ls : List Str) (tokens : List Token) (h : tokenize ls = .ok tokens) :
    ls.filterMap (fun lexeme => (classify lexeme).toOption) = tokens := by
  induction ls generalizing tokens with
  | nil =>
    simp only [tokenize, Except.ok.injEq] at h
    subst h
    rfl
  | cons l rest ih =>
    rw [tokenize] at h
    split at h
    · cases h
    · rename_i token htoken
      split at h
      · cases h
      · rename_i ts hts
        cases h
        rw [List.filterMap_cons, htoken, ih ts hts]
        rfl

/-- One step of the token loop on the token of a lexeme: an instruction without
opcode keeps the operand 0, and the instruction is non-empty afterwards when it
was before or the lexeme is a mnemonic or not a number. -/
theorem dispatch_lexeme (lexeme : Str) (token : Token) (hne : lexeme ≠ ['\n'])
    (h : classify lexeme = .ok token) (instr : Instruction)
    (hinv : instr.opcode = none → instr.operand = .num 0) :
    ((dispatch instr token).opcode = none → (dispatch instr token).operand = .num 0) ∧
    (dispatch instr token).nonEmpty =
      (instr.nonEmpty || (KEYWORDS.contains lexeme || isNaN lexeme)) ∧
    token ≠ .NEW_INSTRUCTION := by
  obtain ⟨h1, h2, h3⟩ := classify_spec lexeme token hne h
  by_cases hkw : lexeme ∈ KEYWORDS
  · have hk : KEYWORDS.contains lexeme = true := by simpa using hkw
    obtain ⟨op, hop⟩ := Option.isSome_iff_exists.1 (keyword_lookup lexeme hkw)
    rw [h1 hkw, hk]
    refine ⟨?_, ?_, by simp⟩
    · cases ho : instr.opcode with
      | none => simp [dispatch, ho, hop]
      | some o => simp [dispatch, ho]
    · cases ho : instr.opcode with
      | none => simp [dispatch, ho, hop, Instruction.nonEmpty]
      | some o => simp [dispatch, ho, Instruction.nonEmpty]
  · have hk : KEYWORDS.contains lexeme = false := by simpa using hkw
    rw [hk]
    cases hnan : isNaN lexeme with
    | true =>
      rw [h2 hkw hnan]
      refine ⟨?_, ?_, by simp⟩
      · cases ho : instr.opcode with
        | none => simpa [dispatch, ho] using hinv ho
        | some o => simp [dispatch, ho]
      · cases ho : instr.opcode with
        | none => simp [dispatch, ho, Instruction.nonEmpty]
        | some o => simp [dispatch, ho, Instruction.nonEmpty]
    | false =>
      rw [h3 hkw hnan]
      refine ⟨?_, ?_, by simp⟩
      · cases ho : instr.opcode with
        | none => simpa [dispatch, ho] using hinv ho
        | some o => simp [dispatch, ho]
      · cases ho : instr.opcode with
        | none => simp [dispatch, ho]
        | some o => simp [dispatch, ho, Instruction.nonEmpty]

/-- The token loop over the tokens of the lexemes of a line. -/
theorem foldl_dispatch_lexemes (ls : List Str) (body : List Token)
    (htok : tokenize ls = .ok body) (hne : ∀ l ∈ ls, l ≠ ['\n']) (instr : Instruction)
    (hinv : instr.opcode = none → instr.operand = .num 0) :
    ((body.foldl dispatch instr).opcode = none → (body.foldl dispatch instr).operand = .num 0) ∧
    (body.foldl dispatch instr).nonEmpty =
      (instr.nonEmpty || ls.any (fun l => KEYWORDS.contains l || isNaN l)) ∧
    Token.NEW_INSTRUCTION ∉ body := by
  induction ls generalizing body instr with
  | nil =>
    simp only [tokenize, Except.ok.injEq] at htok
    subst htok
    exact ⟨hinv, by simp, by simp⟩
  | cons l rest ih =>
    rw [tokenize] at htok
    split at htok
    · cases htok
    · rename_i token htoken
      split at htok
      · cases htok
      · rename_i ts hts
        cases htok
        obtain ⟨d1, d2, d3⟩ := dispatch_lexeme l token (hne l (List.mem_cons_self _ _)) htoken
          instr hinv
        obtain ⟨i1, i2, i3⟩ := ih ts hts (fun x hx => hne x (List.mem_cons_of_mem _ hx))
          (dispatch instr token) d1
        refine ⟨i1, ?_, ?_⟩
        · rw [List.foldl_cons, i2, d2, List.any_cons, Bool.or_assoc]
        · simp only [List.mem_cons, not_or]
          exact ⟨Ne.symm d3, i3⟩

theorem collate_body (body rest : List Token) (hbody : Token.NEW_INSTRUCTION ∉ body)
    (acc : List Instruction) (instr : Instruction) :
    collate acc instr (body ++ rest) = collate acc (body.foldl dispatch instr) rest := by
  induction body generalizing instr with
  | nil => rfl
  | cons token ts ih =>
    simp only [List.mem_cons, not_or] at hbody
    rw [List.cons_append, collate, if_neg (fun h => hbody.1 h.1.symm), ih hbody.2, List.foldl_cons]

theorem collate_terminator (rest : List Token) (acc : List Instruction) (instr : Instruction) :
    collate acc instr (Token.NEW_INSTRUCTION :: rest) =
      if instr.nonEmpty then collate (acc ++ [instr]) {} rest else collate acc instr rest := by
  rw [collate]
  by_cases h : instr.nonEmpty = true
  · rw [if_pos ⟨rfl, h⟩, if_pos h]
    rfl
  · rw [if_neg (fun hc => h hc.2), if_neg h]
    rfl

theorem instruction_eq_new (instr : Instruction)
    (hinv : instr.opcode = none → instr.operand = .num 0) (h : instr.nonEmpty = false) :
    instr = {} := by
  obtain ⟨label, opcode, operand⟩ := instr
  simp only [Instruction.nonEmpty, Bool.or_eq_false_iff] at h
  obtain ⟨⟨hl, ho⟩, -⟩ := h
  cases label with
  | some l => cases hl
  | none =>
    cases opcode with
    | some o => cases ho
    | none =>
      simp only [true_implies] at hinv
      rw [hinv]

/-- The collation of the tokens of a list of lines. -/
theorem collate_lines (ls : List Str) (hnl : ∀ l ∈ ls, '\n' ∉ l) (tokens : List Token)
    (h : tokenize (ls.map (fun elem => split ' ' (preprocess elem) ++ [['\n']])).flatten =
      .ok tokens) (acc : List Instruction) :
    collate acc {} tokens = acc ++ (ls.filter carriesInstruction).map lineInstruction := by
  induction ls generalizing tokens acc with
  | nil =>
    simp only [List.map_nil, List.flatten_nil, tokenize, Except.ok.injEq] at h
    subst h
    simp [collate]
  | cons line rest ih =>
    rw [List.map_cons, List.flatten_cons] at h
    obtain ⟨tl, tr, h1, h2, rfl⟩ := tokenize_append _ _ _ h
    obtain ⟨body, tb, hb, ht, rfl⟩ := tokenize_append _ _ _ h1
    have htb : tb = [.NEW_INSTRUCTION] := by
      have : tokenize [['\n']] = .ok [.NEW_INSTRUCTION] := by decide
      rw [this] at ht
      cases ht
      rfl
    subst htb
    have hline : '\n' ∉ line := hnl line (List.mem_cons_self _ _)
    obtain ⟨f1, f2, f3⟩ := foldl_dispatch_lexemes _ body hb
      (fun l hl => lexeme_ne_terminator line l hline hl) {} (fun _ => rfl)
    have hinstr : lineInstruction line = body.foldl dispatch {} := by
      rw [lineInstruction, lineTokens, tokenize_filterMap _ _ hb]
    have hcarries : (body.foldl dispatch {}).nonEmpty = carriesInstruction line := by
      rw [f2, carriesInstruction]
      rfl
    have ih' := ih (fun l hl => hnl l (List.mem_cons_of_mem _ hl)) tr h2
    rw [List.append_assoc, collate_body _ _ f3, List.singleton_append, collate_terminator]
    cases hc : carriesInstruction line with
    | true =>
      rw [hc] at hcarries
      rw [if_pos hcarries, ih', List.filter_cons_of_pos hc, List.map_cons, hinstr]
      simp
    | false =>
      rw [hc] at hcarries
      rw [if_neg (by simp [hcarries]), instruction_eq_new _ f1 hcarries, ih',
        List.filter_cons_of_neg (by simp [hc])]

theorem assemble_length (symbol_table : SymbolTable) (instructions : List Instruction)
    (ram : List Value) (h : assemble symbol_table instructions = .ok ram) :
    ram.length = instructions.length := by
  induction instructions generalizing ram with
  | nil =>
    simp only [assemble, Except.ok.injEq] at h
    subst h
    rfl
  | cons first rest ih =>
    rw [assemble] at h
    split at h
    · cases h
    · split at h
      · cases h
      · rename_i ram' hram
        cases h
        rw [List.length_cons, List.length_cons, ih ram' hram]

/-- When `assemble` throws, it is the word of one of the instructions that throws. -/
theorem assemble_error_getElem (symbol_table : SymbolTable) (instructions : List Instruction)
    (e : Err) (h : assemble symbol_table instructions = .error e) :
    ∃ (k : Nat) (instruction : Instruction), instructions[k]? = some instruction ∧
      assemble_one symbol_table instruction = .error e := by
  induction instructions with
  | nil => cases h
  | cons first rest ih =>
    rw [assemble] at h
    split at h
    · rename_i e' he'
      cases h
      exact ⟨0, first, by simp, he'⟩
    · split at h
      · rename_i e' he'
        cases h
        obtain ⟨k, instruction, hk, hone⟩ := ih he'
        exact ⟨k + 1, instruction, by simpa using hk, hone⟩
      · cases h

theorem keyword_not_whitespace : ∀ s ∈ KEYWORDS, s.all isStrWhiteSpace = false := by
  decide

/-- A lexeme of white space only is the number 0 and is no mnemonic. -/
theorem whitespace_lexeme (lexeme : Str) (h : lexeme.all isStrWhiteSpace = true) :
    KEYWORDS.contains lexeme = false ∧ isNaN lexeme = false := by
  constructor
  · cases hk : KEYWORDS.contains lexeme with
    | false => rfl
    | true =>
      have hmem : lexeme ∈ KEYWORDS := by simpa using hk
      rw [keyword_not_whitespace lexeme hmem] at h
      cases h
  · have hdrop : lexeme.dropWhile isStrWhiteSpace = [] := by
      rw [List.dropWhile_eq_nil_iff]
      intro c hc
      exact List.all_eq_true.1 h c hc
    have htrim : trim lexeme = [] := by
      rw [trim, hdrop]
      rfl
    have hnum : Number lexeme = .int 0 := by
      rw [Number, htrim]
    rw [isNaN, hnum]
    rfl

theorem carriesInstruction_of_blank (line : Str) (h : isNonEmptyLine line = false) :
    carriesInstruction line = false := by
  rw [isNonEmptyLine, List.any_eq_false] at h
  rw [carriesInstruction, List.any_eq_false]
  intro lexeme hl
  have hall : lexeme.all isStrWhiteSpace = true := by
    have := h lexeme hl
    simpa using this
  obtain ⟨h1, h2⟩ := whitespace_lexeme lexeme hall
  rw [h1, h2]
  simp

/-- C15 (amended): for every source that lexes without error, the instructions collated by
`syntax_analysis` are, in source order, one for each source line that has a lexeme which is a
mnemonic or is not a number, each built from the tokens of its own line alone; no other line gives
an instruction, in particular no line whose lexemes are all whitespace. Consequently, when
`syntax_analysis` and `assemble` return, the memory image is as long as the number of such lines
and the word at address `k` is the word of the `k`-th such line; and when `assemble` throws, it is
the word of one of these lines that throws. -/
theorem instruction_per_line (program_string : Str) (tokens : List Token)
    (h : lexical_analysis program_string = .ok tokens) :
    collate [] {} tokens =
      ((split '\n' program_string).filter carriesInstruction).map lineInstruction ∧
    (∀ (instructions : List Instruction) (symbol_table : SymbolTable),
      syntax_analysis tokens = .ok (instructions, symbol_table) →
      instructions =
        ((split '\n' program_string).filter carriesInstruction).map lineInstruction ∧
      (∀ ram : List Value, assemble symbol_table instructions = .ok ram →
        ram.length = ((split '\n' program_string).filter carriesInstruction).length ∧
        ∀ (k : Nat) (line : Str),
          ((split '\n' program_string).filter carriesInstruction)[k]? = some line →
          ∃ word, assemble_one symbol_table (lineInstruction line) = .ok word ∧
            ram[k]? = some word) ∧
      (∀ e : Err, assemble symbol_table instructions = .error e →
        ∃ (k : Nat) (line : Str),
          ((split '\n' program_string).filter carriesInstruction)[k]? = some line ∧
          assemble_one symbol_table (lineInstruction line) = .error e)) ∧
    (∀ line : Str, isNonEmptyLine line = false → carriesInstruction line = false) := by
  have hcollate : collate [] {} tokens =
      ((split '\n' program_string).filter carriesInstruction).map lineInstruction := by
    unfold lexical_analysis at h
    simp only at h
    split at h
    · cases h
    · have := collate_lines _ (fun l hl => not_mem_of_mem_split _ _ _ hl) tokens h []
      rw [this, List.nil_append]
  refine ⟨hcollate, ?_, carriesInstruction_of_blank⟩
  intro instructions symbol_table hsyn
  have hinstr : instructions =
      ((split '\n' program_string).filter carriesInstruction).map lineInstruction := by
    unfold syntax_analysis at hsyn
    simp only at hsyn
    split at hsyn
    · cases hsyn
    · cases hsyn
      exact hcollate
  refine ⟨hinstr, ?_, ?_⟩
  · intro ram hram
    refine ⟨?_, ?_⟩
    · rw [assemble_length _ _ _ hram, hinstr, List.length_map]
    · intro k line hk
      apply assemble_getElem symbol_table instructions ram hram k
      rw [hinstr, List.getElem?_map, hk]
      rfl
  · intro e he
    obtain ⟨k, instruction, hk, hone⟩ := assemble_error_getElem _ _ e he
    rw [hinstr, List.getElem?_map] at hk
    cases hline : ((split '\n' program_string).filter carriesInstruction)[k]? with
    | none =>
      rw [hline] at hk
      cases hk
    | some line =>
      rw [hline] at hk
      simp only [Option.map_some', Option.some.injEq] at hk
      subst hk
      exact ⟨k, line, hline, hone⟩

/-- An instance of `instruction_per_line`: the source has a labelled data line, a blank line, a
line holding only a number, written as a fraction, and a line with a mnemonic; two instructions
are collated. -/
theorem instruction_per_line_witness :
    lexical_analysis "x DAT 0x10\n\n1.5\nLDA x".toList =
      .ok [.LABEL "x".toList, .OPERATION "DAT".toList, .LITERAL 16, .NEW_INSTRUCTION,
        .LITERAL 0, .NEW_INSTRUCTION, .LITERAL (.dyadic 3 1), .NEW_INSTRUCTION,
        .OPERATION "LDA".toList, .LABEL "x".toList, .NEW_INSTRUCTION] ∧
    collate [] {} [.LABEL "x".toList, .OPERATION "DAT".toList, .LITERAL 16, .NEW_INSTRUCTION,
        .LITERAL 0, .NEW_INSTRUCTION, .LITERAL (.dyadic 3 1), .NEW_INSTRUCTION,
        .OPERATION "LDA".toList, .LABEL "x".toList, .NEW_INSTRUCTION] =
      ((split '\n' "x DAT 0x10\n\n1.5\nLDA x".toList).filter carriesInstruction).map
        lineInstruction ∧
    (split '\n' "x DAT 0x10\n\n1.5\nLDA x".toList).filter carriesInstruction =
      ["x DAT 0x10".toList, "LDA x".toList] ∧
    VirtualMachine.new "x DAT 0x10\n\n1.5\nLDA x".toList = .ok { ram := [.num 16, .num 5000] } :=
  ⟨by decide, (instruction_per_line "x DAT 0x10\n\n1.5\nLDA x".toList _ (by decide)).1,
    by decide, by decide⟩

/-- C15 (counterexample): a line holding only a number is not empty, yet it gives no
instruction. The source of the two lines `5` and `LDA 7` lexes without error and both its lines
are non-empty, but `syntax_analysis` collates one instruction and the memory image has one word:
the second non-empty line is assembled at address 0. -/
theorem numeric_line_no_instruction :
    lexical_analysis "5\nLDA 7".toList =
      .ok [.LITERAL 5, .NEW_INSTRUCTION, .OPERATION "LDA".toList, .LITERAL 7,
        .NEW_INSTRUCTION] ∧
    (split '\n' "5\nLDA 7".toList).filter isNonEmptyLine = ["5".toList, "LDA 7".toList] ∧
    syntax_analysis [.LITERAL 5, .NEW_INSTRUCTION, .OPERATION "LDA".toList, .LITERAL 7,
        .NEW_INSTRUCTION] = .ok ([{ opcode := some 5, operand := .num 7 }], []) ∧
    VirtualMachine.new "5\nLDA 7".toList = .ok { ram := [.num 5007] } := by
  decide

end LMC
